import Mathlib

/-!
# Verification of the estimate-analyze re-evaluation core

A shallow embedding of the score re-evaluation core of the repository:

* `gemini_reanalyzer.py` — percentile engine (`calculate_percentile_scores`),
  batch orchestrator (`reanalyze_property_batch`) with its retry loop and
  tolerant-parse regex fallback;
* `run_reanalysis.py` — multi-round convergence combine
  (`calculate_weighted_average_scores`).

Modelling conventions:

* Python values appearing in records are modelled by the inductive `PyVal`;
  Python dicts are association lists with unique keys and insertion order
  (`dget` / `dset` below mirror `d[k]` / `d[k] = v`).
* Python floats are idealised as exact rationals (`ℚ`); `round` is Python's
  round-half-to-even, modelled exactly on `ℚ`.  Non-finite float literals
  (`inf`, `nan`) are outside the model.
* Effectful steps (the LLM call, JSON extraction of the response body) are
  passed in as explicit oracle arguments, so the orchestrator's control flow
  is a pure function of the batch and the oracle outcomes.
-/

/-- A Python runtime value, as it occurs in the record dictionaries the
re-evaluation core manipulates. -/
inductive PyVal where
  | vnone : PyVal
  | vbool (b : Bool) : PyVal
  | vint (n : ℤ) : PyVal
  | vfloat (q : ℚ) : PyVal
  | vstr (s : String) : PyVal
  | vlist (xs : List PyVal) : PyVal
  | vdict (kvs : List (String × PyVal)) : PyVal

/-- Is this value Python `None`? -/
def PyVal.isNone : PyVal → Bool
  | .vnone => true
  | _ => false

/-- A Python dict with string keys: an association list, first match wins,
keys unique by construction of the operations below. -/
abbrev PyDict := List (String × PyVal)

/-- `d.get(k)` — first entry with key `k`. -/
def dget (k : String) : PyDict → Option PyVal
  | [] => none
  | (k', v) :: rest => if k' = k then some v else dget k rest

/-- `d.get(k, dflt)`. -/
def dgetD (k : String) (dflt : PyVal) (d : PyDict) : PyVal :=
  (dget k d).getD dflt

/-- `d[k] = v` : replace in place if the key exists, else append
(Python dict insertion-order semantics). -/
def dset (k : String) (v : PyVal) : PyDict → PyDict
  | [] => [(k, v)]
  | (k', v') :: rest => if k' = k then (k, v) :: rest else (k', v') :: dset k v rest

/-- `d.update(items)` : set every key/value pair of `items` in `d`, in order. -/
def dupdate (d : PyDict) (items : PyDict) : PyDict :=
  items.foldl (fun acc kv => dset kv.1 kv.2 acc) d

/-- The whitespace characters of Python's `str.strip` / `\s` (ASCII range). -/
def pySpace (c : Char) : Bool :=
  c = ' ' || c = '\t' || c = '\n' || c = '\r' || c = '\x0b' || c = '\x0c'

/-- Strip `pySpace` characters from both ends of a character list. -/
def trimChars (cs : List Char) : List Char :=
  ((cs.dropWhile pySpace).reverse.dropWhile pySpace).reverse

/-- Python `str.strip()`. -/
def pyStrip (s : String) : String :=
  String.mk (trimChars s.toList)

/-- Digit run to a natural number; `none` if empty or a non-digit occurs. -/
def digitsToNat : List Char → Option ℕ
  | [] => none
  | cs =>
    if cs.all Char.isDigit then
      some (cs.foldl (fun acc c => 10 * acc + (c.toNat - '0'.toNat)) 0)
    else none

/-- Python `int(s)` on a string: optional surrounding whitespace, optional
sign, a non-empty digit run; anything else raises `ValueError` (`none`). -/
def pyIntOfString (s : String) : Option ℤ :=
  match trimChars s.toList with
  | '-' :: rest => (digitsToNat rest).map (fun n => -(n : ℤ))
  | '+' :: rest => (digitsToNat rest).map (fun n => (n : ℤ))
  | rest => (digitsToNat rest).map (fun n => (n : ℤ))

/-- Truncation of a rational toward zero, the behaviour of Python `int()`
on a (finite) float. -/
def ratTrunc (q : ℚ) : ℤ :=
  if 0 ≤ q then ⌊q⌋ else -⌊-q⌋

/-- Fractional-part split for a float-literal parse: digits after the
point contribute `n / 10^k`. -/
def fracOfDigits (cs : List Char) : ℚ :=
  (cs.foldl (fun acc c => 10 * acc + (c.toNat - '0'.toNat)) 0 : ℚ) /
    (10 : ℚ) ^ cs.length

/-- Python `float(s)` on a string (finite decimal literals only:
optional sign, `digits[.digits]`, `.digits` or `digits.`, optional
exponent).  Non-finite literals are outside the model. -/
def pyFloatOfString (s : String) : Option ℚ :=
  let cs := trimChars s.toList
  let (sign, cs) : ℚ × List Char :=
    match cs with
    | '-' :: rest => (-1, rest)
    | '+' :: rest => (1, rest)
    | rest => (1, rest)
  let intPart := cs.takeWhile Char.isDigit
  let rest1 := cs.dropWhile Char.isDigit
  let (fracPart, rest2) : List Char × List Char :=
    match rest1 with
    | '.' :: r => (r.takeWhile Char.isDigit, r.dropWhile Char.isDigit)
    | r => ([], r)
  -- at least one digit must be present in the mantissa
  if intPart.isEmpty && fracPart.isEmpty then none
  else
    let mant : ℚ :=
      (intPart.foldl (fun acc c => 10 * acc + (c.toNat - '0'.toNat)) 0 : ℚ) +
        fracOfDigits fracPart
    match rest2 with
    | [] => some (sign * mant)
    | 'e' :: e | 'E' :: e =>
      let (esign, ed) : ℤ × List Char :=
        match e with
        | '-' :: r => (-1, r)
        | '+' :: r => (1, r)
        | r => (1, r)
      match digitsToNat ed with
      | some n => some (sign * mant * (10 : ℚ) ^ (esign * (n : ℤ)))
      | none => none
    | _ => none

/-- Python `str(v)` as used on identifier values.  Container values get an
abbreviated rendering; only equality of rendered keys matters downstream. -/
def pyStr : PyVal → String
  | .vnone => "None"
  | .vbool b => if b then "True" else "False"
  | .vint n => toString n
  | .vfloat q => if q.den = 1 then toString q.num ++ ".0" else toString q.num ++ "/" ++ toString q.den
  | .vstr s => s
  | .vlist _ => "<list>"
  | .vdict _ => "<dict>"

/-- Python `float(v)` : numbers pass through (bools count as 0/1), strings
are parsed, everything else raises (`none`). -/
def pyFloatCoerce : PyVal → Option ℚ
  | .vint n => some (n : ℚ)
  | .vfloat q => some q
  | .vbool b => some (if b then 1 else 0)
  | .vstr s => pyFloatOfString s
  | _ => none

/-- Python `int(v)` for values that passed an `isinstance(v, (str, int,
float))` check (plus `bool`, a subclass of `int`): integers pass through,
floats truncate toward zero, strings parse or raise (`none`). -/
def pyIntCoerce : PyVal → Option ℤ
  | .vint n => some n
  | .vfloat q => some (ratTrunc q)
  | .vbool b => some (if b then 1 else 0)
  | .vstr s => pyIntOfString s
  | _ => none

/-- Python 3 `round(x)` : round half to even, exactly on `ℚ`. -/
def roundHalfEven (x : ℚ) : ℤ :=
  if x - (⌊x⌋ : ℚ) < 1 / 2 then ⌊x⌋
  else if 1 / 2 < x - (⌊x⌋ : ℚ) then ⌊x⌋ + 1
  else if ⌊x⌋ % 2 = 0 then ⌊x⌋ else ⌊x⌋ + 1

/-- Python `round(x, 1)`. -/
def pyRound1 (x : ℚ) : ℚ := (roundHalfEven (x * 10) : ℚ) / 10

/-- Python `round(x, 2)`. -/
def pyRound2 (x : ℚ) : ℚ := (roundHalfEven (x * 100) : ℚ) / 100

/-- Does `needle` occur as a contiguous substring of `hay` (Python
`needle in hay` on strings)? -/
def charsStartWith : List Char → List Char → Bool
  | [], _ => true
  | _ :: _, [] => false
  | n :: ns, h :: hs => n = h && charsStartWith ns hs

/-- Substring scan used for `'total' in sub_key or 'score' in sub_key`. -/
def charsContain (needle : List Char) : List Char → Bool
  | [] => needle.isEmpty
  | h :: hs => charsStartWith needle (h :: hs) || charsContain needle hs

/-- Python `needle in hay` for strings. -/
def strContains (hay needle : String) : Bool :=
  charsContain needle.toList hay.toList

/-! ## Percentile & ranking engine (`gemini_reanalyzer.calculate_percentile_scores`) -/

/-- Category score extraction inside the per-record `try` block:
`prop[cat].get(sub, 0)` guarded by `isinstance` checks, then `int(...)`.
`none` models a raised exception (a string that `int()` cannot parse). -/
def catScore (cat sub : String) (p : PyDict) : Option ℤ :=
  match dget cat p with
  | some (.vdict d) =>
    match dgetD sub (.vint 0) d with
    | .vint n => some n
    | .vbool b => some (if b then 1 else 0)
    | .vfloat q => some (ratTrunc q)
    | .vstr s => pyIntOfString s
    | _ => some 0
  | some _ => some 0
  | none => some 0

/-- `total_score = prop.get('total_score', 0)` followed by the same
`isinstance`-guarded `int(...)`. -/
def totalScoreOf (p : PyDict) : Option ℤ :=
  match dgetD "total_score" (.vint 0) p with
  | .vint n => some n
  | .vbool b => some (if b then 1 else 0)
  | .vfloat q => some (ratTrunc q)
  | .vstr s => pyIntOfString s
  | _ => some 0

/-- The per-record contributions to the five score lists.  The `try` body
appends to the lists in order (location, building, convenience, price,
total); on the first raising step the bare `except` appends a `0` to all
five lists, so lists already appended-to receive a second entry. -/
structure Contrib where
  loc : List ℤ
  bld : List ℤ
  conv : List ℤ
  pr : List ℤ
  tot : List ℤ

/-- Evaluate one record's extraction, with the source's exception
semantics. -/
def recordContrib (p : PyDict) : Contrib :=
  match catScore "location_accessibility" "location_total" p with
  | none => ⟨[0], [0], [0], [0], [0]⟩
  | some a =>
    match catScore "building_quality" "building_total" p with
    | none => ⟨[a, 0], [0], [0], [0], [0]⟩
    | some b =>
      match catScore "living_convenience" "convenience_total" p with
      | none => ⟨[a, 0], [b, 0], [0], [0], [0]⟩
      | some c =>
        match catScore "price_value" "price_total" p with
        | none => ⟨[a, 0], [b, 0], [c, 0], [0], [0]⟩
        | some d =>
          match totalScoreOf p with
          | none => ⟨[a, 0], [b, 0], [c, 0], [d, 0], [0]⟩
          | some e => ⟨[a], [b], [c], [d], [e]⟩

/-- The value of `calculate_percentile(scores)` at key `score`, with the
`.get(score, 0)` default folded in: the dict is built over `set(scores)`,
and `rank = sorted(scores).index(score) + 1`, `percentile =
round(rank / len * 100, 1)`. -/
def pctValue (scores : List ℤ) (s : ℤ) : ℚ :=
  if s ∈ scores then
    pyRound1 ((((scores.insertionSort (· ≤ ·)).indexOf s : ℕ) + 1 : ℚ)
      / (scores.length : ℚ) * 100)
  else 0

/-- The five percentile entries written into `prop['percentile_scores']`. -/
def pctEntries (ls bs cs prs ts : List ℤ) (i : ℕ) : PyDict :=
  [("location_percentile", .vfloat (pctValue ls (ls.getD i 0))),
   ("building_percentile", .vfloat (pctValue bs (bs.getD i 0))),
   ("convenience_percentile", .vfloat (pctValue cs (cs.getD i 0))),
   ("price_percentile", .vfloat (pctValue prs (prs.getD i 0))),
   ("total_percentile", .vfloat (pctValue ts (ts.getD i 0)))]

/-- The five score lists (`location_scores` … `total_scores`),
concatenating each record's contributions. -/
def locList (ps : List PyDict) : List ℤ := ps.flatMap (fun p => (recordContrib p).loc)

/-- `building_scores`. -/
def bldList (ps : List PyDict) : List ℤ := ps.flatMap (fun p => (recordContrib p).bld)

/-- `convenience_scores`. -/
def convList (ps : List PyDict) : List ℤ := ps.flatMap (fun p => (recordContrib p).conv)

/-- `price_scores`. -/
def priceList (ps : List PyDict) : List ℤ := ps.flatMap (fun p => (recordContrib p).pr)

/-- `total_scores`. -/
def totList (ps : List PyDict) : List ℤ := ps.flatMap (fun p => (recordContrib p).tot)

/-- The annotation loop body (lines 91-107): write
`prop['percentile_scores']`, then `prop['weighted_percentile_score']` =
`round(location·0.4 + building·0.3 + convenience·0.15 + price·0.15, 2)`. -/
def annotRecord (ls bs cs prs ts : List ℤ) (i : ℕ) (p : PyDict) : PyDict :=
  dset "weighted_percentile_score"
    (.vfloat (pyRound2
      (pctValue ls (ls.getD i 0) * 0.4
        + pctValue bs (bs.getD i 0) * 0.3
        + pctValue cs (cs.getD i 0) * 0.15
        + pctValue prs (prs.getD i 0) * 0.15)))
    (dset "percentile_scores" (.vdict (pctEntries ls bs cs prs ts i)) p)

/-- `calculate_percentile_scores(properties_list)` : annotate every record
with its percentile profile and the weighted composite. -/
def calculate_percentile_scores (ps : List PyDict) : List PyDict :=
  if ps.isEmpty then ps
  else
    ps.enum.map (fun ip =>
      annotRecord (locList ps) (bldList ps) (convList ps) (priceList ps)
        (totList ps) ip.1 ip.2)

/-! ## Batch reconciliation (`reanalyze_property_batch`, lines 342-401) -/

/-- Generic association lookup (string-keyed). -/
def aget {α : Type} (k : String) : List (String × α) → Option α
  | [] => none
  | (k', v) :: rest => if k' = k then some v else aget k rest

/-- Generic association set, replacing in place (dict semantics). -/
def aset {α : Type} (k : String) (v : α) : List (String × α) → List (String × α)
  | [] => [(k, v)]
  | (k', v') :: rest => if k' = k then (k, v) :: rest else (k', v') :: aset k v rest

/-- `[str(prop.get('hidx')) for prop in batch if prop.get('hidx') is not None]`. -/
def batchHidxList (ps : List PyDict) : List String :=
  ps.filterMap (fun p =>
    match dget "hidx" p with
    | some v => if v.isNone then none else some (pyStr v)
    | none => none)

/-- Duplicate removal keeping first occurrences.  Python's
`batch_hidx_set` is a `set`, whose iteration order is unspecified; the
missing-record loop below iterates it in this (admissible) order. -/
def firstDedup (l : List String) : List String :=
  (l.foldl (fun acc x => if acc.contains x then acc else x :: acc) []).reverse

/-- `{str(prop['hidx']): prop for prop in batch if 'hidx' in prop}` —
dict comprehension, later entries overwrite earlier ones. -/
def initialBatchMap (ps : List PyDict) : List (String × PyDict) :=
  ps.foldl (fun m p =>
    match dget "hidx" p with
    | some v => aset (pyStr v) p m
    | none => m) []

/-- `int(float(v))` with `(ValueError, TypeError)` caught: on failure the
original value is left in place. -/
def coerceScoreVal (v : PyVal) : PyVal :=
  match pyFloatCoerce v with
  | some q => .vint (ratTrunc q)
  | none => v

/-- The in-place numeric coercion applied to a response item before the
merge: `total_score`, then every `*total*`/`*score*` sub-key of the four
category dicts. -/
def coerceItem (item : PyDict) : PyDict :=
  let it1 :=
    match dget "total_score" item with
    | some v => dset "total_score" (coerceScoreVal v) item
    | none => item
  ["location_accessibility", "building_quality", "living_convenience",
   "price_value"].foldl
    (fun it cat =>
      match dget cat it with
      | some (.vdict d) =>
        dset cat (.vdict (d.map (fun kv =>
          if strContains kv.1 "total" || strContains kv.1 "score" then
            (kv.1, coerceScoreVal kv.2)
          else kv))) it
      | _ => it) it1

/-- The annotation written on records missing from the response. -/
def missingMsg : String := "재평가 API 응답에서 누락되어 원본 데이터 유지"

/-- State of the merge loop over `reanalyzed_list`. -/
structure MergeState where
  map : List (String × PyDict)
  finalRev : List PyDict
  processed : List String

/-- The identifier under which the merge loop files a response item:
`str(item.get('hidx', ''))`. -/
def itemHidx (it : PyDict) : String := pyStr (dgetD "hidx" (.vstr "") it)

/-- One iteration of the merge loop: take the item's identifier via
`str(item.get('hidx', ''))`; merge only if it is expected, not yet
processed, and present in the initial map; duplicates and foreign
identifiers are dropped. -/
def mergeStep (expected : List String) (st : MergeState) (item : PyDict) :
    MergeState :=
  if expected.contains (itemHidx item) &&
      !st.processed.contains (itemHidx item) then
    match aget (itemHidx item) st.map with
    | some prop =>
      { map := aset (itemHidx item) (dupdate prop (coerceItem item)) st.map
        finalRev := dupdate prop (coerceItem item) :: st.finalRev
        processed := itemHidx item :: st.processed }
    | none => st
  else st

/-- Reconciliation (lines 343-395): run the merge loop, then retain every
expected-but-unprocessed identifier with its pre-batch state, annotated in
`reanalysis_comment`. -/
def reconcileProps (ps items : List PyDict) : List PyDict :=
  let expected := batchHidxList ps
  let st := items.foldl (mergeStep expected)
    ⟨initialBatchMap ps, [], []⟩
  let missing := (firstDedup expected).filterMap (fun h =>
    if !st.processed.contains h then
      match aget h st.map with
      | some prop => some (dset "reanalysis_comment" (.vstr missingMsg) prop)
      | none => none
    else none)
  st.finalRev.reverse ++ missing

/-- The successful-merge path of the orchestrator: reconciliation followed
by the percentile pass (line 398). -/
def reanalyzeMergePath (ps items : List PyDict) : List PyDict :=
  calculate_percentile_scores (reconcileProps ps items)

/-! ## Retry loop and orchestrator dispatch (`reanalyze_property_batch`) -/

/-- Outcome of one `client.models.generate_content` call:
a response (whose `.text` may be falsy), or a raised exception, which is
either a quota signal (`"429"` / `"RESOURCE_EXHAUSTED"` in the message) or
not. -/
inductive ApiOutcome where
  | resp (text : String) : ApiOutcome
  | noText : ApiOutcome
  | exn (isQuota : Bool) : ApiOutcome

/-- `API_MIN_DELAY_SECONDS_REANALYZER = 2.0`. -/
def API_MIN_DELAY_SECONDS_REANALYZER : ℚ := 2

/-- `MAX_RETRY = 3`. -/
def MAX_RETRY : ℕ := 3

/-- The `while retry_count < MAX_RETRY` loop (lines 189-232), as a pure
function of the per-attempt outcomes.  Attempt `i` (0-based) is `f i`:
every earlier attempt failed, so the attempt index equals the current
`retry_count`.  Returns the sleeps performed (in seconds, in order), the
number of API calls made, and `response_text` (already `.strip()`ed) if
obtained.  The fuel argument is `MAX_RETRY` at the outer call, which
bounds the iteration count. -/
def retryLoop (f : ℕ → ApiOutcome) : ℕ → ℕ → List ℚ × ℕ × Option String
  | 0, _ => ([], 0, none)
  | fuel + 1, rc =>
    if rc < MAX_RETRY then
      match f rc with
      | .resp t =>
        if t ≠ "" then ([], 1, some (pyStrip t))
        else
          let rest := retryLoop f fuel (rc + 1)
          ((if rc + 1 < MAX_RETRY then [((2 : ℚ) ^ (rc + 1))] else []) ++ rest.1,
            rest.2.1 + 1, rest.2.2)
      | .noText =>
        let rest := retryLoop f fuel (rc + 1)
        ((if rc + 1 < MAX_RETRY then [((2 : ℚ) ^ (rc + 1))] else []) ++ rest.1,
          rest.2.1 + 1, rest.2.2)
      | .exn q =>
        let rest := retryLoop f fuel (rc + 1)
        ((if rc + 1 < MAX_RETRY then
            [if q then (60 + 30 * ((rc : ℚ) + 1)) else (2 : ℚ) ^ (rc + 1)]
          else []) ++ rest.1,
          rest.2.1 + 1, rest.2.2)
    else ([], 0, none)

/-- The rate-limit gate before the API call (lines 138-144): if less than
the minimum delay elapsed since the last call, sleep the difference. -/
def rateGateSleeps (elapsed : ℚ) : List ℚ :=
  if elapsed < API_MIN_DELAY_SECONDS_REANALYZER then
    [API_MIN_DELAY_SECONDS_REANALYZER - elapsed]
  else []

/-- Outcome of the JSON extraction/parsing chain (lines 240-341) on the
response text, abstracted as an oracle: no JSON block found (or every
parse attempt failed), a parsed list of objects, or an exception raised
while processing. -/
inductive ParseResult where
  | noJson : ParseResult
  | parsed (items : List PyDict) : ParseResult
  | exnRaised : ParseResult

/-- Is the configured key falsy (`if not api_key`)? -/
def keyFalsy : Option String → Bool
  | none => true
  | some s => s = ""

/-- A marker for a Python exception propagating. -/
inductive PyExn where
  | exn : PyExn

/-- The body of the inner `try` (lines 241-401): parse the response text
and merge; a processing exception propagates as `.error`. -/
def processResponseExc (ps : List PyDict) (parse : String → ParseResult)
    (rt : String) : Except PyExn (List PyDict) :=
  match parse rt with
  | .noJson => .ok (calculate_percentile_scores ps)
  | .parsed items => .ok (reanalyzeMergePath ps items)
  | .exnRaised => .error PyExn.exn

/-- `reanalyze_property_batch`, as a pure function of the batch, the key,
and the outcome oracles, viewed in the exception monad of the `try`
blocks.  The handler at line 403 catches any processing exception and
returns the percentile-annotated input batch; the theorems below show no
error escapes. -/
def reanalyze_property_batch_exc (ps : List PyDict) (apiKey : Option String)
    (f : ℕ → ApiOutcome) (parse : String → ParseResult) :
    Except PyExn (List PyDict) :=
  if ps.isEmpty then .ok []
  else if keyFalsy apiKey then .ok (calculate_percentile_scores ps)
  else if (batchHidxList ps).isEmpty then .ok (calculate_percentile_scores ps)
  else
    match (retryLoop f MAX_RETRY 0).2.2 with
    | none => .ok (calculate_percentile_scores ps)
    | some rt =>
      if rt = "" then .ok (calculate_percentile_scores ps)
      else
        match processResponseExc ps parse rt with
        | .error _ => .ok (calculate_percentile_scores ps)
        | .ok l => .ok l

/-- The returned record list (the function as its callers see it; the
`.error` branch is unreachable — see the error-handling theorem). -/
def reanalyze_property_batch (ps : List PyDict) (apiKey : Option String)
    (f : ℕ → ApiOutcome) (parse : String → ParseResult) : List PyDict :=
  match reanalyze_property_batch_exc ps apiKey f parse with
  | .ok l => l
  | .error _ => []

/-! ## Multi-round convergence combine
(`run_reanalysis.calculate_weighted_average_scores`) -/

/-- `CONVERGENCE_THRESHOLD = 5.0` (from `gemini_reanalyzer.py`). -/
def CONVERGENCE_THRESHOLD : ℚ := 5

/-- Per-identifier accumulation state: raw scores, weights, and the
records, in round order. -/
structure ScoreGroup where
  scores : List PyVal
  weights : List ℚ
  props : List PyDict

/-- Append one observation to the group of identifier `h`, creating the
group on first sight (dict insertion-order semantics). -/
def groupAppend (acc : List (String × ScoreGroup)) (h : String) (s : PyVal)
    (w : ℚ) (p : PyDict) : List (String × ScoreGroup) :=
  match aget h acc with
  | some _ =>
    acc.map (fun kv =>
      if kv.1 = h then
        (h, ⟨kv.2.scores ++ [s], kv.2.weights ++ [w], kv.2.props ++ [p]⟩)
      else kv)
  | none => acc ++ [(h, ⟨[s], [w], [p]⟩)]

/-- The grouping pass (lines 216-231): round `round_idx` (0-based) weighs
`(round_idx + 1) / len(all_round_results)`. -/
def gatherRounds (rounds : List (List PyDict)) : List (String × ScoreGroup) :=
  rounds.enum.foldl (fun acc ridxRound =>
    let w : ℚ := ((ridxRound.1 + 1 : ℕ) : ℚ) / (rounds.length : ℚ)
    ridxRound.2.foldl (fun acc p =>
      groupAppend acc (pyStr (dgetD "hidx" .vnone p))
        (dgetD "total_score" (.vint 0) p) w p) acc) []

/-- A value as `numpy` coerces it for `np.average` / `np.var`; `none`
(non-numeric) makes those calls raise. -/
def npNum : PyVal → Option ℚ
  | .vint n => some (n : ℚ)
  | .vfloat q => some q
  | .vbool b => some (if b then 1 else 0)
  | _ => none

/-- Fixed-point rendering of a rational with two decimals, Python's
`f"{v:.2f}"` idealised. -/
def qFixed2 (v : ℚ) : String :=
  let m := roundHalfEven (v * 100)
  let a := m.natAbs
  (if m < 0 then "-" else "") ++ toString (a / 100) ++ "." ++
    (if a % 100 < 10 then "0" else "") ++ toString (a % 100)

/-- Coerce a score list for `numpy`; `none` (some non-numeric entry)
makes `np.average` / `np.var` raise. -/
def npNums : List PyVal → Option (List ℚ)
  | [] => some []
  | v :: rest =>
    match npNum v with
    | none => none
    | some q =>
      match npNums rest with
      | none => none
      | some qs => some (q :: qs)

/-- Population mean. -/
def qMean (xs : List ℚ) : ℚ := xs.sum / (xs.length : ℚ)

/-- `np.var(xs)` : population variance (mean of squared deviations). -/
def npVar (xs : List ℚ) : ℚ :=
  ((xs.map (fun x => (x - qMean xs) ^ 2)).sum) / (xs.length : ℚ)

/-- `np.average(xs, weights=ws)` : `Σ xᵢ·wᵢ / Σ wᵢ`. -/
def npAverage (xs ws : List ℚ) : ℚ :=
  (List.zipWith (· * ·) xs ws).sum / ws.sum

/-- The per-identifier combine (lines 238-264): weighted-average score,
population variance of the raw scores, convergence flag, and the final
record assembled from the latest round's record.  `none` models the
`numpy` call raising on a non-numeric score. -/
def combineGroup (g : ScoreGroup) : Option PyDict :=
  match npNums g.scores with
  | none => none
  | some qs =>
    let weighted := npAverage qs g.weights
    let variance := if 1 < g.scores.length then npVar qs else 0
    let isConv : Bool := decide (variance ≤ CONVERGENCE_THRESHOLD)
    let base := (g.props.getLastD [])
    some (dset "reanalysis_comment"
      (.vstr ("다중 라운드 재평가 완료 (라운드: " ++ toString g.scores.length
        ++ ", 분산: " ++ qFixed2 variance ++ ")"))
      (dset "is_converged" (.vbool isConv)
        (dset "score_rounds" (.vlist g.scores)
          (dset "score_variance" (.vfloat (pyRound2 variance))
            (dset "total_score" (.vint (roundHalfEven weighted)) base)))))

/-- `calculate_weighted_average_scores(all_round_results)`.  The `Except`
result records that a non-numeric score makes the (un-guarded) `numpy`
calls raise out of the function. -/
def calculate_weighted_average_scores (rounds : List (List PyDict)) :
    Except PyExn (List PyDict) :=
  if rounds.isEmpty then .ok []
  else
    ((gatherRounds rounds).filter (fun kv => !kv.2.scores.isEmpty)).foldl
      (fun acc kv =>
        match acc with
        | .error e => .error e
        | .ok l =>
          match combineGroup kv.2 with
          | none => .error PyExn.exn
          | some p => .ok (l ++ [p]))
      (.ok [])

/-! ## Tolerant-parse regex fallback (`reanalyze_property_batch`,
lines 310-334): `re.finditer` of the pattern
`\{\s*"hidx"\s*:\s*"([^"]+)"[^}]*\}` over the raw response text, each
match parsed by `json.loads` independently, failures replaced by a
placeholder scorecard. -/

/-- Match the object pattern at the current position: `{`, whitespace,
the literal `"hidx"`, whitespace, `:`, whitespace, a double-quoted
non-empty group of non-quote characters, then (greedily) non-`}`
characters up to a `}`.  Returns the capture group and the match
length. -/
def matchHidxObj : List Char → Option (String × ℕ)
  | '{' :: r1 =>
    let ws1 := (r1.takeWhile pySpace).length
    match r1.dropWhile pySpace with
    | '"' :: 'h' :: 'i' :: 'd' :: 'x' :: '"' :: r3 =>
      let ws2 := (r3.takeWhile pySpace).length
      match r3.dropWhile pySpace with
      | ':' :: r5 =>
        let ws3 := (r5.takeWhile pySpace).length
        match r5.dropWhile pySpace with
        | '"' :: r7 =>
          let grp := r7.takeWhile (· != '"')
          if grp.isEmpty then none
          else
            match r7.dropWhile (· != '"') with
            | '"' :: r9 =>
              let body := (r9.takeWhile (· != '}')).length
              match r9.dropWhile (· != '}') with
              | '}' :: _ =>
                some (String.mk grp,
                  1 + ws1 + 6 + ws2 + 1 + ws3 + 1 + grp.length + 1 + body + 1)
              | _ => none
            | _ => none
        | _ => none
      | _ => none
    | _ => none
  | _ => none

/-- `re.finditer` scan with explicit fuel (every step consumes at least
one character, so fuel `length` suffices). -/
def findHidxMatchesF : ℕ → List Char → List (String × String)
  | 0, _ => []
  | _ + 1, [] => []
  | fuel + 1, c :: rest =>
    match matchHidxObj (c :: rest) with
    | some (g, len) =>
      (String.mk ((c :: rest).take len), g) ::
        findHidxMatchesF fuel (rest.drop (len - 1))
    | none => findHidxMatchesF fuel rest

/-- `re.finditer` semantics: scan left to right, emit non-overlapping
matches, resume after each match.  Returns `(whole match, group 1)`
pairs. -/
def findHidxMatches (cs : List Char) : List (String × String) :=
  findHidxMatchesF cs.length cs

/-- A parsed JSON value (Python `json.loads` output).  `jnan`/`jinf`
stand for the non-finite literals Python's decoder accepts. -/
inductive Json where
  | jnull : Json
  | jbool (b : Bool) : Json
  | jnum (q : ℚ) : Json
  | jnan : Json
  | jinf (neg : Bool) : Json
  | jstr (s : String) : Json
  | jarr (xs : List Json) : Json
  | jobj (kvs : List (String × Json)) : Json

/-- JSON whitespace. -/
def jsonWs (c : Char) : Bool := c = ' ' || c = '\t' || c = '\n' || c = '\r'

/-- Hex digit value. -/
def hexVal (c : Char) : Option ℕ :=
  if '0' ≤ c ∧ c ≤ '9' then some (c.toNat - '0'.toNat)
  else if 'a' ≤ c ∧ c ≤ 'f' then some (c.toNat - 'a'.toNat + 10)
  else if 'A' ≤ c ∧ c ≤ 'F' then some (c.toNat - 'A'.toNat + 10)
  else none

/-- JSON string body after the opening quote: strict mode (raw control
characters rejected), standard escapes, `\uXXXX` (lone surrogates are
rendered via `Char.ofNat`'s fallback). -/
def jstrLoop : List Char → Option (List Char × List Char)
  | [] => none
  | '"' :: r => some ([], r)
  | '\\' :: e :: r =>
    match e, r with
    | '"', r => (jstrLoop r).map (fun p => ('"' :: p.1, p.2))
    | '\\', r => (jstrLoop r).map (fun p => ('\\' :: p.1, p.2))
    | '/', r => (jstrLoop r).map (fun p => ('/' :: p.1, p.2))
    | 'b', r => (jstrLoop r).map (fun p => ('\x08' :: p.1, p.2))
    | 'f', r => (jstrLoop r).map (fun p => ('\x0c' :: p.1, p.2))
    | 'n', r => (jstrLoop r).map (fun p => ('\n' :: p.1, p.2))
    | 'r', r => (jstrLoop r).map (fun p => ('\r' :: p.1, p.2))
    | 't', r => (jstrLoop r).map (fun p => ('\t' :: p.1, p.2))
    | 'u', a :: b :: c :: d :: r =>
      match hexVal a, hexVal b, hexVal c, hexVal d with
      | some x, some y, some z, some w =>
        (jstrLoop r).map (fun p =>
          (Char.ofNat (((x * 16 + y) * 16 + z) * 16 + w) :: p.1, p.2))
      | _, _, _, _ => none
    | _, _ => none
  | c :: r =>
    if c.toNat < 0x20 then none
    else (jstrLoop r).map (fun p => (c :: p.1, p.2))

/-- JSON number grammar: `-?(0|[1-9][0-9]*)(\.[0-9]+)?([eE][+-]?[0-9]+)?`,
longest match, value as an exact rational. -/
def parseJsonNumber (cs : List Char) : Option (ℚ × List Char) :=
  let (sign, cs1) : ℚ × List Char :=
    match cs with
    | '-' :: r => (-1, r)
    | r => (1, r)
  let intRes : Option (ℕ × List Char) :=
    match cs1 with
    | '0' :: r => some (0, r)
    | c :: r =>
      if c.isDigit then
        some (((c :: r).takeWhile Char.isDigit).foldl
          (fun acc ch => 10 * acc + (ch.toNat - '0'.toNat)) 0,
          (c :: r).dropWhile Char.isDigit)
      else none
    | [] => none
  match intRes with
  | none => none
  | some (ip, r2) =>
    let fracRes : Option (ℚ × List Char) :=
      match r2 with
      | '.' :: r =>
        let ds := r.takeWhile Char.isDigit
        if ds.isEmpty then none else some (fracOfDigits ds, r.dropWhile Char.isDigit)
      | r => some (0, r)
    match fracRes with
    | none => none
    | some (fp, r3) =>
      match r3 with
      | 'e' :: r | 'E' :: r =>
        let (esign, r4) : ℤ × List Char :=
          match r with
          | '-' :: rr => (-1, rr)
          | '+' :: rr => (1, rr)
          | rr => (1, rr)
        let ds := r4.takeWhile Char.isDigit
        if ds.isEmpty then none
        else
          some (sign * ((ip : ℚ) + fp) *
            (10 : ℚ) ^ (esign * (ds.foldl
              (fun acc ch => 10 * acc + (ch.toNat - '0'.toNat)) 0 : ℕ)),
            r4.dropWhile Char.isDigit)
      | r3 => some (sign * ((ip : ℚ) + fp), r3)

mutual

/-- One JSON value at the head of the input (leading whitespace
skipped), recursive-descent with fuel (the fuel never runs out when
started at `length + 1`). -/
def parseJsonVal : ℕ → List Char → Option (Json × List Char)
  | 0, _ => none
  | fuel + 1, cs =>
    match cs.dropWhile jsonWs with
    | 't' :: 'r' :: 'u' :: 'e' :: r => some (.jbool true, r)
    | 'f' :: 'a' :: 'l' :: 's' :: 'e' :: r => some (.jbool false, r)
    | 'n' :: 'u' :: 'l' :: 'l' :: r => some (.jnull, r)
    | 'N' :: 'a' :: 'N' :: r => some (.jnan, r)
    | 'I' :: 'n' :: 'f' :: 'i' :: 'n' :: 'i' :: 't' :: 'y' :: r =>
      some (.jinf false, r)
    | '-' :: 'I' :: 'n' :: 'f' :: 'i' :: 'n' :: 'i' :: 't' :: 'y' :: r =>
      some (.jinf true, r)
    | '"' :: r => (jstrLoop r).map (fun p => (.jstr (String.mk p.1), p.2))
    | '[' :: r => parseJsonArr fuel (r.dropWhile jsonWs) true
    | '{' :: r => parseJsonObj fuel (r.dropWhile jsonWs) true
    | rest => (parseJsonNumber rest).map (fun p => (.jnum p.1, p.2))

/-- Array elements after `[` (whitespace already skipped); `first` is
true before the first element. -/
def parseJsonArr : ℕ → List Char → Bool → Option (Json × List Char)
  | 0, _, _ => none
  | _ + 1, ']' :: r, true => some (.jarr [], r)
  | fuel + 1, cs, _ =>
    match parseJsonVal fuel cs with
    | none => none
    | some (v, r1) =>
      match r1.dropWhile jsonWs with
      | ',' :: r2 =>
        match parseJsonArr fuel (r2.dropWhile jsonWs) false with
        | some (.jarr xs, r3) => some (.jarr (v :: xs), r3)
        | _ => none
      | ']' :: r2 => some (.jarr [v], r2)
      | _ => none

/-- Object members after `{` (whitespace already skipped). -/
def parseJsonObj : ℕ → List Char → Bool → Option (Json × List Char)
  | 0, _, _ => none
  | _ + 1, '}' :: r, true => some (.jobj [], r)
  | fuel + 1, cs, _ =>
    match cs with
    | '"' :: r =>
      match jstrLoop r with
      | none => none
      | some (key, r1) =>
        match r1.dropWhile jsonWs with
        | ':' :: r2 =>
          match parseJsonVal fuel r2 with
          | none => none
          | some (v, r3) =>
            match r3.dropWhile jsonWs with
            | ',' :: r4 =>
              match r4.dropWhile jsonWs with
              | '"' :: _ =>
                match parseJsonObj fuel (r4.dropWhile jsonWs) false with
                | some (.jobj kvs, r5) =>
                  some (.jobj ((String.mk key, v) :: kvs), r5)
                | _ => none
              | _ => none
            | '}' :: r4 => some (.jobj [(String.mk key, v)], r4)
            | _ => none
        | _ => none
    | _ => none

end

/-- Python `json.loads(s)` : one JSON document, with only whitespace
allowed after it. -/
def jsonLoads (s : String) : Option Json :=
  let cs := s.toList
  match parseJsonVal (cs.length + 1) cs with
  | some (v, rest) => if (rest.dropWhile jsonWs).isEmpty then some v else none
  | none => none

/-- The comment on a placeholder scorecard. -/
def parseFailComment : String := "JSON 파싱 실패로 기본값 사용"

/-- The placeholder built when an individually extracted object still
fails to parse: `{"hidx": h, "total_score": 50, "reanalysis_comment": …}`. -/
def placeholderScorecard (h : String) : Json :=
  .jobj [("hidx", .jstr h), ("total_score", .jnum 50),
         ("reanalysis_comment", .jstr parseFailComment)]

/-- The regex-fallback pass: extract every pattern match from the raw
response text, parse each independently, and replace parse failures by
the placeholder scorecard carrying the captured identifier. -/
def regexObjectFallback (text : String) : List Json :=
  (findHidxMatches text.toList).map (fun wg =>
    match jsonLoads wg.1 with
    | some obj => obj
    | none => placeholderScorecard wg.2)

/-! ## Claim-side definitions and observers -/

/-- Observer: the rational stored at key `k` of `prop['percentile_scores']`. -/
def pctOfRecord (p : PyDict) (k : String) : Option ℚ :=
  match dget "percentile_scores" p with
  | some (.vdict d) =>
    match dget k d with
    | some (.vfloat q) => some q
    | _ => none
  | _ => none

/-- Observer: the rational stored at `prop['weighted_percentile_score']`. -/
def weightedOfRecord (p : PyDict) : Option ℚ :=
  match dget "weighted_percentile_score" p with
  | some (.vfloat q) => some q
  | _ => none

/-- Did the score extraction of this record complete without raising? -/
def extractOk (p : PyDict) : Bool :=
  (catScore "location_accessibility" "location_total" p).isSome &&
  (catScore "building_quality" "building_total" p).isSome &&
  (catScore "living_convenience" "convenience_total" p).isSome &&
  (catScore "price_value" "price_total" p).isSome &&
  (totalScoreOf p).isSome

/-- The identifiers carried by a response. -/
def returnedHidxs (items : List PyDict) : List String := items.map itemHidx

/-- The first response item filed under identifier `h`. -/
def firstItemFor (items : List PyDict) (h : String) : Option PyDict :=
  items.find? (fun it => itemHidx it == h)

/-- Claim-side ("weight round r's score by r / roundCount"): the per-round
raw scores of identifier `h`, tagged with their 1-based round index. -/
def specRoundScores (rounds : List (List PyDict)) (h : String) :
    List (ℕ × PyVal) :=
  rounds.enum.flatMap (fun rr =>
    (rr.2.filter (fun p => pyStr (dgetD "hidx" PyVal.vnone p) == h)).map
      (fun p => (rr.1 + 1, dgetD "total_score" (PyVal.vint 0) p)))

/-- Numeric view of an occurrence list; `none` if any raw score is
non-numeric. -/
def specNumScores : List (ℕ × PyVal) → Option (List (ℕ × ℚ))
  | [] => some []
  | rq :: rest =>
    match npNum rq.2 with
    | none => none
    | some q =>
      match specNumScores rest with
      | none => none
      | some occ => some ((rq.1, q) :: occ)

/-- Claim-side weighted average: score of round `r` weighted by
`r / roundCount`. -/
def specWeightedAvg (n : ℕ) (occ : List (ℕ × ℚ)) : ℚ :=
  (occ.map (fun rq => ((rq.1 : ℚ) / (n : ℚ)) * rq.2)).sum /
    (occ.map (fun rq => ((rq.1 : ℚ) / (n : ℚ)))).sum

/-- Claim-side unweighted (population) variance of a score list. -/
def specVariance (xs : List ℚ) : ℚ :=
  ((xs.map (fun x => (x - xs.sum / (xs.length : ℚ)) ^ 2)).sum) / (xs.length : ℚ)

/-- Does this attempt outcome fail (empty/falsy text or an exception)? -/
def attemptFails (o : ApiOutcome) : Bool :=
  match o with
  | .resp t => t = ""
  | .noText => true
  | .exn _ => true

/-- The wait performed after the `k`-th failed attempt (1-based), `k <
MAX_RETRY`: a quota signal waits `60 + 30·k` seconds, anything else
waits `2^k` seconds. -/
def failSleep (o : ApiOutcome) (k : ℕ) : ℚ :=
  match o with
  | .exn true => 60 + 30 * (k : ℚ)
  | _ => (2 : ℚ) ^ k

/-- Claim-side (amended) retry sleep schedule: one wait after each failed
attempt except the last-possible one. -/
def specRetrySleeps (f : ℕ → ApiOutcome) : List ℚ :=
  if !attemptFails (f 0) then []
  else if !attemptFails (f 1) then [failSleep (f 0) 1]
  else [failSleep (f 0) 1, failSleep (f 1) 2]

/-! ## Concrete example inputs used by witnesses and counterexamples -/

/-- Two rounds of scores `[80, 90]` for identifier `"1"` (the spec's
convergence-combine example). -/
def C1rounds : List (List PyDict) :=
  [[[("hidx", .vstr "1"), ("total_score", .vint 80)]],
   [[("hidx", .vstr "1"), ("total_score", .vint 90)]]]

/-- The numeric scores the combine step collects for `C1rounds`. -/
def C1qs : List ℚ := [((80 : ℤ) : ℚ), ((90 : ℤ) : ℚ)]

/-- The round weights the combine step collects for `C1rounds`. -/
def C1ws : List ℚ :=
  [((0 + 1 : ℕ) : ℚ) / ((2 : ℕ) : ℚ), ((1 + 1 : ℕ) : ℚ) / ((2 : ℕ) : ℚ)]

/-- The combined record the convergence engine produces for `C1rounds`. -/
def C1chain : PyDict :=
  dset "reanalysis_comment"
    (.vstr ("다중 라운드 재평가 완료 (라운드: " ++ toString (2 : ℕ) ++ ", 분산: "
      ++ qFixed2 (npVar C1qs) ++ ")"))
    (dset "is_converged" (.vbool (decide (npVar C1qs ≤ CONVERGENCE_THRESHOLD)))
      (dset "score_rounds" (.vlist [.vint 80, .vint 90])
        (dset "score_variance" (.vfloat (pyRound2 (npVar C1qs)))
          (dset "total_score" (.vint (roundHalfEven (npAverage C1qs C1ws)))
            [("hidx", .vstr "1"), ("total_score", .vint 90)]))))

/-- A record whose building-quality subtotal is the empty string — the
value the Excel loader produces for a blank cell; `int('')` raises inside
the extraction `try`. -/
def C2badRec : PyDict :=
  [("building_quality", .vdict [("building_total", .vstr "")])]

/-- Three records with total scores 70, 70, 90. -/
def C2threeRecs : List PyDict :=
  [[("total_score", .vint 70)], [("total_score", .vint 70)],
   [("total_score", .vint 90)]]

/-- A record whose price-value subtotal is the empty string. -/
def C10badRec : PyDict :=
  [("price_value", .vdict [("price_total", .vstr "")])]

/-- Batch of two identified records (witness input). -/
def C3batch : List PyDict :=
  [[("hidx", .vstr "a"), ("total_score", .vint 10), ("note", .vstr "origA")],
   [("hidx", .vstr "b"), ("total_score", .vint 20)]]

/-- A response covering only identifier `"a"` of the batch, plus one
foreign identifier `"zz"` that is not in the batch. -/
def C3items : List PyDict :=
  [[("hidx", .vstr "a"), ("total_score", .vint 88)],
   [("hidx", .vstr "zz"), ("total_score", .vint 5)]]

/-- Batch with one identified record (witness input). -/
def C4batch : List PyDict :=
  [[("hidx", .vstr "a"), ("total_score", .vint 10)]]

/-- First occurrence for identifier `"a"`. -/
def C4item1 : PyDict := [("hidx", .vstr "a"), ("total_score", .vint 91)]

/-- A later duplicate for identifier `"a"` with different data. -/
def C4item2 : PyDict := [("hidx", .vstr "a"), ("total_score", .vint 17)]

/-- A single-record batch (witness input). -/
def C5rec : PyDict :=
  [("hidx", .vstr "z"), ("total_score", .vint 70),
   ("location_accessibility", .vdict [("location_total", .vint 30)])]

/-- Garbage response text containing one broken object with identifier
`"2"` (the spec's tolerant-parsing example). -/
def C6garbage : String := "garbage \x7b\"hidx\": \"2\", broken!!\x7d end"

/-- The single pattern match inside `C6garbage`. -/
def C6match : String := "\x7b\"hidx\": \"2\", broken!!\x7d"

/-- Text holding a valid brace-delimited object that contains an `hidx`
field — but not as its first member, so the fallback pattern misses it. -/
def C6nonFirst : String := "xx \x7b\"a\": 1, \"hidx\": \"9\"\x7d yy"

/-- The object embedded in `C6nonFirst`. -/
def C6nonFirstObj : String := "\x7b\"a\": 1, \"hidx\": \"9\"\x7d"

/-- A batch mixing an identified and an identifier-less record (witness
input). -/
def C9batch : List PyDict :=
  [[("hidx", .vstr "a"), ("total_score", .vint 10)],
   [("total_score", .vint 30)]]

/-- A response for `C9batch`. -/
def C9items : List PyDict :=
  [[("hidx", .vstr "a"), ("total_score", .vint 77)]]

/-- One step of the grouping pass, on the flattened observation stream. -/
def obsStep (acc : List (String × ScoreGroup))
    (o : String × PyVal × ℚ × PyDict) : List (String × ScoreGroup) :=
  groupAppend acc o.1 o.2.1 o.2.2.1 o.2.2.2

/-- The grouping pass flattened: one observation per record occurrence,
`(rendered identifier, raw score, round weight, record)`. -/
def roundObs (rounds : List (List PyDict)) :
    List (String × PyVal × ℚ × PyDict) :=
  rounds.enum.flatMap (fun rr =>
    rr.2.map (fun p =>
      (pyStr (dgetD "hidx" PyVal.vnone p),
        dgetD "total_score" (PyVal.vint 0) p,
        ((rr.1 + 1 : ℕ) : ℚ) / (rounds.length : ℚ), p)))

/-- The observations filed under identifier `h`. -/
def obsFor (h : String) (obs : List (String × PyVal × ℚ × PyDict)) :
    List (String × PyVal × ℚ × PyDict) :=
  obs.filter (fun o => o.1 == h)

/-- Extending a group by a stream of observations. -/
def extendGroup (g : ScoreGroup)
    (os : List (String × PyVal × ℚ × PyDict)) : ScoreGroup :=
  ⟨g.scores ++ os.map (fun o => o.2.1),
   g.weights ++ os.map (fun o => o.2.2.1),
   g.props ++ os.map (fun o => o.2.2.2)⟩

/-- A well-formed single record (witness input). -/
def C10okRec : PyDict := [("hidx", .vstr "w"), ("total_score", .vint 80)]

/-- A record whose five score extractions all succeed with value 0. -/
def C10manyRec : PyDict :=
  [("location_accessibility", .vdict [("location_total", .vint 0)]),
   ("building_quality", .vdict [("building_total", .vint 0)]),
   ("living_convenience", .vdict [("convenience_total", .vint 0)]),
   ("price_value", .vdict [("price_total", .vint 0)]),
   ("total_score", .vint 0)]

/-- A batch of 2001 identical clean records: its score lists hold 2001
entries, past the point where `round(100·rank/len, 1)` can reach 0.0. -/
def C10bigBatch : List PyDict := List.replicate 2001 C10manyRec

/-! # Infrastructure lemmas -/

theorem dget_dset_self (k : String) (v : PyVal) (d : PyDict) :
    dget k (dset k v d) = some v := by
  induction d with
  | nil => simp [dget, dset]
  | cons kv rest ih =>
    obtain ⟨k', v'⟩ := kv
    by_cases h : k' = k
    · simp [dset, h, dget]
    · simp [dset, h, dget, ih]

theorem dget_dset_ne (k k' : String) (v : PyVal) (d : PyDict) (h : k' ≠ k) :
    dget k (dset k' v d) = dget k d := by
  induction d with
  | nil => simp [dget, dset, h]
  | cons kv rest ih =>
    obtain ⟨k₀, v₀⟩ := kv
    by_cases h0 : k₀ = k'
    · subst h0
      simp [dset, dget, h]
    · by_cases h1 : k₀ = k
      · subst h1
        simp [dset, dget, h0, Ne.symm h]
      · simp [dset, h0, dget, h1, ih]

theorem aget_aset_self {α : Type} (k : String) (v : α)
    (d : List (String × α)) : aget k (aset k v d) = some v := by
  induction d with
  | nil => simp [aget, aset]
  | cons kv rest ih =>
    obtain ⟨k', v'⟩ := kv
    by_cases h : k' = k
    · simp [aset, h, aget]
    · simp [aset, h, aget, ih]

theorem aget_aset_ne {α : Type} (k k' : String) (v : α)
    (d : List (String × α)) (h : k' ≠ k) :
    aget k (aset k' v d) = aget k d := by
  induction d with
  | nil => simp [aget, aset, h]
  | cons kv rest ih =>
    obtain ⟨k₀, v₀⟩ := kv
    by_cases h0 : k₀ = k'
    · subst h0
      simp [aset, aget, h]
    · by_cases h1 : k₀ = k
      · subst h1
        simp [aset, aget, h0, Ne.symm h]
      · simp [aset, h0, aget, h1, ih]

theorem dget_dset_isSome (k k' : String) (v : PyVal) (d : PyDict)
    (h : (dget k d).isSome) : (dget k (dset k' v d)).isSome := by
  by_cases hk : k' = k
  · subst hk
    simp [dget_dset_self]
  · rwa [dget_dset_ne _ _ _ _ hk]

theorem dget_dupdate_isSome (k : String) (its : PyDict) (d : PyDict)
    (h : (dget k d).isSome) : (dget k (dupdate d its)).isSome := by
  induction its generalizing d with
  | nil => simpa [dupdate]
  | cons kv rest ih =>
    have : dupdate d (kv :: rest) = dupdate (dset kv.1 kv.2 d) rest := by
      simp [dupdate]
    rw [this]
    exact ih _ (dget_dset_isSome _ _ _ _ h)

theorem roundHalfEven_le (x : ℚ) (n : ℤ) (h : x ≤ (n : ℚ)) :
    roundHalfEven x ≤ n := by
  have hf : ⌊x⌋ ≤ n := by
    have := Int.floor_le_floor h
    simpa using this
  have hfx : (⌊x⌋ : ℚ) ≤ x := Int.floor_le x
  unfold roundHalfEven
  split_ifs with h1 h2 h3
  · exact hf
  · have hlt : ⌊x⌋ < n := by
      have hx : (⌊x⌋ : ℚ) < x := by linarith
      have : (⌊x⌋ : ℚ) < (n : ℚ) := lt_of_lt_of_le hx h
      exact_mod_cast this
    omega
  · exact hf
  · have hr : x - (⌊x⌋ : ℚ) = 1 / 2 := by linarith
    have hlt : ⌊x⌋ < n := by
      have hx : (⌊x⌋ : ℚ) < x := by linarith
      have : (⌊x⌋ : ℚ) < (n : ℚ) := lt_of_lt_of_le hx h
      exact_mod_cast this
    omega

theorem one_le_roundHalfEven (x : ℚ) (h : 1 / 2 < x) :
    1 ≤ roundHalfEven x := by
  have hnn : 0 ≤ ⌊x⌋ := Int.floor_nonneg.mpr (by linarith)
  have hup : x < (⌊x⌋ : ℚ) + 1 := Int.lt_floor_add_one x
  unfold roundHalfEven
  split_ifs with h1 h2 h3
  · have : (0 : ℚ) < (⌊x⌋ : ℚ) := by linarith
    have : (0 : ℤ) < ⌊x⌋ := by exact_mod_cast this
    omega
  · omega
  · have hr : x - (⌊x⌋ : ℚ) = 1 / 2 := by linarith
    have : (0 : ℚ) < (⌊x⌋ : ℚ) := by linarith
    have : (0 : ℤ) < ⌊x⌋ := by exact_mod_cast this
    omega
  · omega

theorem roundHalfEven_nonneg (x : ℚ) (h : 0 ≤ x) :
    0 ≤ roundHalfEven x := by
  have h0 : 0 ≤ ⌊x⌋ := Int.floor_nonneg.mpr h
  unfold roundHalfEven
  split_ifs <;> omega

/-! # Claim C7 -/

/-- C7, counterexample: with every attempt hitting the quota signal, the
code's backoff waits are exactly 90 and 120 seconds (code:
`60 + retry_count * 30`, deterministic, no jitter) — and no exponential
schedule `base · 2^attempt` produces consecutive waits 90, 120, since it
would force a doubling. -/
theorem claim_C7_counterexample :
    (retryLoop (fun _ => ApiOutcome.exn true) MAX_RETRY 0).1 = [90, 120] ∧
    ¬ ∃ (b : ℚ) (a : ℕ), (90 : ℚ) = b * 2 ^ a ∧ (120 : ℚ) = b * 2 ^ (a + 1) := by
  constructor
  · norm_num [retryLoop, MAX_RETRY]
  · rintro ⟨b, a, h1, h2⟩
    have h3 : (120 : ℚ) = (b * 2 ^ a) * 2 := by rw [h2]; ring
    rw [← h1] at h3
    norm_num at h3

/-- C7, amended: for every batch call the orchestrator makes at most
3 attempts; the minimum inter-call delay is enforced once before the
first attempt (the gate sleep tops the elapsed time up to the minimum
delay); after the k-th failed attempt (k = 1, 2) it waits, before
retrying, `60 + 30·k` seconds on a quota-exceeded signal (a linear
schedule, without jitter) and `2^k` seconds on any other failure; no
wait follows the final failed attempt. -/
theorem claim_C7 (f : ℕ → ApiOutcome) (elapsed : ℚ) :
    (retryLoop f MAX_RETRY 0).2.1 ≤ 3 ∧
    (retryLoop f MAX_RETRY 0).1 = specRetrySleeps f ∧
    API_MIN_DELAY_SECONDS_REANALYZER ≤ elapsed + (rateGateSleeps elapsed).sum := by
  refine ⟨?_, ?_, ?_⟩
  · rcases h0 : f 0 with t0 | _ | q0 <;>
      rcases h1 : f 1 with t1 | _ | q1 <;>
        rcases h2 : f 2 with t2 | _ | q2 <;>
          simp [retryLoop, MAX_RETRY, h0, h1, h2] <;> split_ifs <;> simp
  · rcases h0 : f 0 with t0 | _ | q0 <;>
      rcases h1 : f 1 with t1 | _ | q1 <;>
        rcases h2 : f 2 with t2 | _ | q2 <;>
          simp [retryLoop, MAX_RETRY, specRetrySleeps, attemptFails, failSleep,
            h0, h1, h2] <;> split_ifs <;> simp_all <;> norm_num
  · unfold rateGateSleeps
    split_ifs with h
    · simp
    · simp
      linarith [le_of_not_lt h]

/-! # Claim C8 -/

/-- No branch of the orchestrator escapes with an exception. -/
theorem reanalyze_exc_isOk (ps : List PyDict) (key : Option String)
    (f : ℕ → ApiOutcome) (parse : String → ParseResult) :
    ∃ l, reanalyze_property_batch_exc ps key f parse = .ok l := by
  unfold reanalyze_property_batch_exc
  split_ifs
  · exact ⟨_, rfl⟩
  · exact ⟨_, rfl⟩
  · exact ⟨_, rfl⟩
  · split
    · exact ⟨_, rfl⟩
    · split_ifs
      · exact ⟨_, rfl⟩
      · split
        · exact ⟨_, rfl⟩
        · exact ⟨_, rfl⟩

/-- C8: on every input — empty batch, missing key, failed call, or a
processing exception — the orchestrator returns a record list and never
propagates an exception (the `Except` view always yields `.ok`, and it
yields exactly the list the callers receive); the empty input yields the
empty list. -/
theorem claim_C8 (ps : List PyDict) (key : Option String)
    (f : ℕ → ApiOutcome) (parse : String → ParseResult) :
    reanalyze_property_batch_exc ps key f parse =
      Except.ok (reanalyze_property_batch ps key f parse) ∧
    reanalyze_property_batch [] key f parse = [] := by
  obtain ⟨l, hl⟩ := reanalyze_exc_isOk ps key f parse
  constructor
  · rw [hl]
    unfold reanalyze_property_batch
    rw [hl]
  · rfl


/-! # Claim C2 -/

/-- C2, the code evaluated at a failing input: for the single record
`C2badRec` (its building subtotal is the empty string, the value the
Excel loader produces for a blank cell), the claim's formula gives the
sole record rank 1 of 1 and hence location percentile 100.0; the code
returns 50.0, because the bare `except` appends a second `0` to the
already-appended location list, desynchronising the score lists from the
record count.  The `[70, 70, 90]` part of the claim does hold. -/
theorem claim_C2 :
    (calculate_percentile_scores [C2badRec]).map
      (fun p => pctOfRecord p "location_percentile") = [some (50 : ℚ)] ∧
    (calculate_percentile_scores C2threeRecs).map
      (fun p => pctOfRecord p "total_percentile") =
      [some (333 / 10 : ℚ), some (333 / 10 : ℚ), some (100 : ℚ)] ∧
    (50 : ℚ) ≠ 100 := by
  have e1 : (calculate_percentile_scores [C2badRec]).map
      (fun p => pctOfRecord p "location_percentile")
      = [some (pctValue [0, 0] 0)] := rfl
  have e2 : pctValue [0, 0] 0 = 50 := by
    simp only [pctValue, List.insertionSort, List.orderedInsert,
      List.indexOf, List.findIdx, List.findIdx.go, Bool.cond_eq_ite,
      beq_iff_eq]
    norm_num [pyRound1, roundHalfEven]
  have e3 : (calculate_percentile_scores C2threeRecs).map
      (fun p => pctOfRecord p "total_percentile")
      = [some (pctValue [70, 70, 90] 70), some (pctValue [70, 70, 90] 70),
         some (pctValue [70, 70, 90] 90)] := rfl
  have e4 : pctValue [70, 70, 90] 70 = 333 / 10 := by
    simp only [pctValue, List.insertionSort, List.orderedInsert,
      List.indexOf, List.findIdx, List.findIdx.go, Bool.cond_eq_ite,
      beq_iff_eq]
    norm_num [pyRound1, roundHalfEven]
  have e5 : pctValue [70, 70, 90] 90 = 100 := by
    simp only [pctValue, List.insertionSort, List.orderedInsert,
      List.indexOf, List.findIdx, List.findIdx.go, Bool.cond_eq_ite,
      beq_iff_eq]
    norm_num [pyRound1, roundHalfEven]
  refine ⟨?_, ?_, by norm_num⟩
  · rw [e1, e2]
  · rw [e3, e4, e5]

/-! # Claim C5 -/

/-- Every output record of the percentile engine is an annotated input
record. -/
theorem mem_calculate_percentile_scores {ps : List PyDict} {p' : PyDict}
    (h : p' ∈ calculate_percentile_scores ps) :
    ∃ i p, (i, p) ∈ ps.enum ∧
      p' = annotRecord (locList ps) (bldList ps) (convList ps)
        (priceList ps) (totList ps) i p := by
  unfold calculate_percentile_scores at h
  cases he : ps.isEmpty with
  | true =>
    rw [he] at h
    simp only [if_pos] at h
    rw [List.isEmpty_iff] at he
    subst he
    simp at h
  | false =>
    rw [he] at h
    simp only [Bool.false_eq_true, if_neg] at h
    rcases List.mem_map.mp h with ⟨ip, hip, hEq⟩
    exact ⟨ip.1, ip.2, hip, hEq.symm⟩

/-- Reading back the location percentile of an annotated record. -/
theorem pctOfRecord_annot_loc (ls bs cs prs ts : List ℤ) (i : ℕ) (p : PyDict) :
    pctOfRecord (annotRecord ls bs cs prs ts i p) "location_percentile"
      = some (pctValue ls (ls.getD i 0)) := by
  unfold pctOfRecord annotRecord
  rw [dget_dset_ne _ _ _ _ (by decide), dget_dset_self]
  rfl

/-- Reading back the building percentile of an annotated record. -/
theorem pctOfRecord_annot_bld (ls bs cs prs ts : List ℤ) (i : ℕ) (p : PyDict) :
    pctOfRecord (annotRecord ls bs cs prs ts i p) "building_percentile"
      = some (pctValue bs (bs.getD i 0)) := by
  unfold pctOfRecord annotRecord
  rw [dget_dset_ne _ _ _ _ (by decide), dget_dset_self]
  rfl

/-- Reading back the convenience percentile of an annotated record. -/
theorem pctOfRecord_annot_conv (ls bs cs prs ts : List ℤ) (i : ℕ) (p : PyDict) :
    pctOfRecord (annotRecord ls bs cs prs ts i p) "convenience_percentile"
      = some (pctValue cs (cs.getD i 0)) := by
  unfold pctOfRecord annotRecord
  rw [dget_dset_ne _ _ _ _ (by decide), dget_dset_self]
  rfl

/-- Reading back the price percentile of an annotated record. -/
theorem pctOfRecord_annot_price (ls bs cs prs ts : List ℤ) (i : ℕ) (p : PyDict) :
    pctOfRecord (annotRecord ls bs cs prs ts i p) "price_percentile"
      = some (pctValue prs (prs.getD i 0)) := by
  unfold pctOfRecord annotRecord
  rw [dget_dset_ne _ _ _ _ (by decide), dget_dset_self]
  rfl

/-- Reading back the total percentile of an annotated record. -/
theorem pctOfRecord_annot_tot (ls bs cs prs ts : List ℤ) (i : ℕ) (p : PyDict) :
    pctOfRecord (annotRecord ls bs cs prs ts i p) "total_percentile"
      = some (pctValue ts (ts.getD i 0)) := by
  unfold pctOfRecord annotRecord
  rw [dget_dset_ne _ _ _ _ (by decide), dget_dset_self]
  rfl

/-- Reading back the weighted composite of an annotated record. -/
theorem weightedOfRecord_annot (ls bs cs prs ts : List ℤ) (i : ℕ) (p : PyDict) :
    weightedOfRecord (annotRecord ls bs cs prs ts i p)
      = some (pyRound2
          (pctValue ls (ls.getD i 0) * 0.4
            + pctValue bs (bs.getD i 0) * 0.3
            + pctValue cs (cs.getD i 0) * 0.15
            + pctValue prs (prs.getD i 0) * 0.15)) := by
  unfold weightedOfRecord annotRecord
  rw [dget_dset_self]

/-- C5: every record annotated by the percentile engine carries a
`weighted_percentile_score` equal to `round(0.4·L + 0.3·B + 0.15·C +
0.15·P, 2)` where `L`, `B`, `C`, `P` are exactly the four category
percentiles stored on that same record — a pure function of those four
percentiles alone. -/
theorem claim_C5 (ps : List PyDict) (p' : PyDict)
    (h : p' ∈ calculate_percentile_scores ps) :
    ∃ L B C P : ℚ,
      pctOfRecord p' "location_percentile" = some L ∧
      pctOfRecord p' "building_percentile" = some B ∧
      pctOfRecord p' "convenience_percentile" = some C ∧
      pctOfRecord p' "price_percentile" = some P ∧
      weightedOfRecord p' =
        some (pyRound2 (L * 0.4 + B * 0.3 + C * 0.15 + P * 0.15)) := by
  obtain ⟨i, p, hip, rfl⟩ := mem_calculate_percentile_scores h
  exact ⟨_, _, _, _,
    pctOfRecord_annot_loc _ _ _ _ _ _ _,
    pctOfRecord_annot_bld _ _ _ _ _ _ _,
    pctOfRecord_annot_conv _ _ _ _ _ _ _,
    pctOfRecord_annot_price _ _ _ _ _ _ _,
    weightedOfRecord_annot _ _ _ _ _ _ _⟩

/-- C5 witness: the claim instantiated on the singleton batch `[C5rec]`. -/
theorem claim_C5_witness :
    ∃ L B C P : ℚ,
      pctOfRecord (annotRecord (locList [C5rec]) (bldList [C5rec])
        (convList [C5rec]) (priceList [C5rec]) (totList [C5rec]) 0 C5rec)
        "location_percentile" = some L ∧
      pctOfRecord (annotRecord (locList [C5rec]) (bldList [C5rec])
        (convList [C5rec]) (priceList [C5rec]) (totList [C5rec]) 0 C5rec)
        "building_percentile" = some B ∧
      pctOfRecord (annotRecord (locList [C5rec]) (bldList [C5rec])
        (convList [C5rec]) (priceList [C5rec]) (totList [C5rec]) 0 C5rec)
        "convenience_percentile" = some C ∧
      pctOfRecord (annotRecord (locList [C5rec]) (bldList [C5rec])
        (convList [C5rec]) (priceList [C5rec]) (totList [C5rec]) 0 C5rec)
        "price_percentile" = some P ∧
      weightedOfRecord (annotRecord (locList [C5rec]) (bldList [C5rec])
        (convList [C5rec]) (priceList [C5rec]) (totList [C5rec]) 0 C5rec) =
        some (pyRound2 (L * 0.4 + B * 0.3 + C * 0.15 + P * 0.15)) :=
  claim_C5 [C5rec] _ (by exact List.mem_cons_self _ _)

/-! # Claim C6 -/

/-- C6, counterexample: `C6nonFirst` contains the brace-delimited object
`C6nonFirstObj`, which carries an `hidx` identifier field and parses as
JSON — yet the fallback extracts nothing, because the pattern
`\{\s*"hidx"\s*:\s*"([^"]+)"[^}]*\}` only matches objects whose *first*
member is a double-quoted `hidx`.  The claim ("extracts every
brace-delimited object containing an hidx identifier field") predicts an
entry with identifier `"9"`; the code yields the empty list. -/
theorem claim_C6_counterexample :
    regexObjectFallback C6nonFirst = [] ∧
    strContains C6nonFirst C6nonFirstObj = true ∧
    (jsonLoads C6nonFirstObj).isSome = true := by
  refine ⟨rfl, rfl, rfl⟩

/-- C6, amended: the fallback extracts every match of the pattern
`\{\s*"hidx"\s*:\s*"([^"]+)"[^}]*\}` — an object whose first member is a
double-quoted `hidx` with a double-quoted value, extending to the first
closing brace — and parses each match independently; a match that parses
contributes its parsed object, and a match that still fails to parse
becomes a placeholder scorecard carrying the captured identifier with
`total_score` 50. -/
theorem claim_C6 (text : String) (w g : String)
    (hm : (w, g) ∈ findHidxMatches text.toList) :
    (jsonLoads w = none →
      placeholderScorecard g ∈ regexObjectFallback text) ∧
    (∀ j, jsonLoads w = some j → j ∈ regexObjectFallback text) := by
  constructor
  · intro hfail
    unfold regexObjectFallback
    refine List.mem_map.mpr ⟨(w, g), hm, ?_⟩
    simp [hfail]
  · intro j hj
    unfold regexObjectFallback
    refine List.mem_map.mpr ⟨(w, g), hm, ?_⟩
    simp [hj]

/-- C6 witness: garbage text containing a broken object with identifier
`"2"` still yields the placeholder with identifier `"2"` and
`total_score` 50. -/
theorem claim_C6_witness :
    (C6match, "2") ∈ findHidxMatches C6garbage.toList ∧
    jsonLoads C6match = none ∧
    placeholderScorecard "2" ∈ regexObjectFallback C6garbage := by
  have hm : findHidxMatches C6garbage.toList = [(C6match, "2")] := rfl
  have hmem : (C6match, "2") ∈ findHidxMatches C6garbage.toList := by
    rw [hm]
    exact List.mem_cons_self _ _
  have hnone : jsonLoads C6match = none := rfl
  exact ⟨hmem, hnone, (claim_C6 C6garbage C6match "2" hmem).1 hnone⟩

/-! # Claim C10 -/

/-- Each record contributes between one and two entries to each score
list. -/
theorem recordContrib_len_loc (p : PyDict) :
    1 ≤ (recordContrib p).loc.length ∧ (recordContrib p).loc.length ≤ 2 := by
  unfold recordContrib
  repeat' split
  all_goals simp

/-- Bounds for the building list. -/
theorem recordContrib_len_bld (p : PyDict) :
    1 ≤ (recordContrib p).bld.length ∧ (recordContrib p).bld.length ≤ 2 := by
  unfold recordContrib
  repeat' split
  all_goals simp

/-- Bounds for the convenience list. -/
theorem recordContrib_len_conv (p : PyDict) :
    1 ≤ (recordContrib p).conv.length ∧ (recordContrib p).conv.length ≤ 2 := by
  unfold recordContrib
  repeat' split
  all_goals simp

/-- Bounds for the price list. -/
theorem recordContrib_len_pr (p : PyDict) :
    1 ≤ (recordContrib p).pr.length ∧ (recordContrib p).pr.length ≤ 2 := by
  unfold recordContrib
  repeat' split
  all_goals simp

/-- Bounds for the total list. -/
theorem recordContrib_len_tot (p : PyDict) :
    1 ≤ (recordContrib p).tot.length ∧ (recordContrib p).tot.length ≤ 2 := by
  unfold recordContrib
  repeat' split
  all_goals simp

/-- Lower length bound for a flatMap whose pieces are non-empty. -/
theorem le_length_flatMap {α β : Type} (l : List α) (f : α → List β)
    (h : ∀ a ∈ l, 1 ≤ (f a).length) : l.length ≤ (l.flatMap f).length := by
  induction l with
  | nil => simp
  | cons a rest ih =>
    simp only [List.flatMap_cons, List.length_append, List.length_cons]
    have h1 := h a (List.mem_cons_self _ _)
    have h2 := ih (fun b hb => h b (List.mem_cons_of_mem _ hb))
    omega

/-- Upper length bound for a flatMap whose pieces have at most two
entries. -/
theorem length_flatMap_le {α β : Type} (l : List α) (f : α → List β)
    (h : ∀ a ∈ l, (f a).length ≤ 2) : (l.flatMap f).length ≤ 2 * l.length := by
  induction l with
  | nil => simp
  | cons a rest ih =>
    simp only [List.flatMap_cons, List.length_append, List.length_cons]
    have h1 := h a (List.mem_cons_self _ _)
    have h2 := ih (fun b hb => h b (List.mem_cons_of_mem _ hb))
    omega

/-- `getD` of a valid index is a member. -/
theorem getD_mem_of_lt (l : List ℤ) (i : ℕ) (h : i < l.length) :
    l.getD i 0 ∈ l := by
  induction l generalizing i with
  | nil => simp at h
  | cons a rest ih =>
    cases i with
    | zero => simp [List.getD]
    | succ j =>
      simp only [List.getD_cons_succ]
      exact List.mem_cons_of_mem _ (ih j (by simpa using h))

/-- The percentile assigned to a member of a score list of length at most
1998 lies in `[0.1, 100]`. -/
theorem pctValue_bounds (scores : List ℤ) (s : ℤ) (hs : s ∈ scores)
    (hlen : scores.length ≤ 1998) :
    1 / 10 ≤ pctValue scores s ∧ pctValue scores s ≤ 100 := by
  unfold pctValue
  rw [if_pos hs]
  have hmemS : s ∈ scores.insertionSort (· ≤ ·) :=
    (List.perm_insertionSort _ scores).mem_iff.mpr hs
  have hlenS : (scores.insertionSort (· ≤ ·)).length = scores.length :=
    (List.perm_insertionSort _ scores).length_eq
  have hidx : (scores.insertionSort (· ≤ ·)).indexOf s < scores.length := by
    rw [← hlenS]
    exact List.indexOf_lt_length.mpr hmemS
  have hn0 : 0 < scores.length := List.length_pos.mpr (List.ne_nil_of_mem hs)
  set idx := (scores.insertionSort (· ≤ ·)).indexOf s with hidxdef
  set n := scores.length with hndef
  have hnQ : (0 : ℚ) < (n : ℚ) := by exact_mod_cast hn0
  have hx : ((idx : ℚ) + 1) / (n : ℚ) * 100 * 10 = ((idx : ℚ) + 1) * 1000 / (n : ℚ) := by
    ring
  have hlow : 1 / 2 < ((idx : ℚ) + 1) / (n : ℚ) * 100 * 10 := by
    rw [hx, lt_div_iff hnQ]
    have h1 : (n : ℚ) ≤ 1998 := by exact_mod_cast hlen
    have h2 : (0 : ℚ) ≤ (idx : ℚ) := by positivity
    nlinarith
  have hup : ((idx : ℚ) + 1) / (n : ℚ) * 100 * 10 ≤ ((1000 : ℤ) : ℚ) := by
    rw [hx, div_le_iff hnQ]
    have h1 : (idx : ℚ) + 1 ≤ (n : ℚ) := by
      have : idx + 1 ≤ n := hidx
      exact_mod_cast this
    push_cast
    nlinarith
  constructor
  · unfold pyRound1
    have h1 := one_le_roundHalfEven _ hlow
    have h1Q : (1 : ℚ) ≤ (roundHalfEven (((idx : ℚ) + 1) / (n : ℚ) * 100 * 10) : ℚ) := by
      exact_mod_cast h1
    linarith
  · unfold pyRound1
    have h2 := roundHalfEven_le _ _ hup
    have h2Q : ((roundHalfEven (((idx : ℚ) + 1) / (n : ℚ) * 100 * 10)) : ℚ) ≤ 1000 := by
      exact_mod_cast h2
    linarith

/-- Flattening a replicated batch whose every record contributes one
entry yields a replicated score list. -/
theorem flatMap_replicate_single (n : ℕ) (p : PyDict)
    (f : PyDict → List ℤ) (c : ℤ) (hf : f p = [c]) :
    (List.replicate n p).flatMap f = List.replicate n c := by
  induction n with
  | zero => rfl
  | succ m ih =>
    rw [List.replicate_succ, List.flatMap_cons, hf, ih,
      List.replicate_succ, List.singleton_append]

/-- Sorting a constant list returns it. -/
theorem insertionSort_replicate_zero (n : ℕ) :
    (List.replicate n (0 : ℤ)).insertionSort (· ≤ ·) =
      List.replicate n 0 := by
  have hperm := List.perm_insertionSort (· ≤ ·) (List.replicate n (0 : ℤ))
  refine List.eq_replicate_iff.mpr ⟨?_, ?_⟩
  · rw [hperm.length_eq, List.length_replicate]
  · intro b hb
    exact List.eq_of_mem_replicate (hperm.subset hb)

/-- With more than 2000 collected scores, `round(100·rank/len, 1)` of the
lowest rank is exactly 0.0. -/
theorem pctValue_replicate_zero (m : ℕ) (hlo : 2000 < m + 1) :
    pctValue (List.replicate (m + 1) (0 : ℤ)) 0 = 0 := by
  unfold pctValue
  rw [if_pos (List.mem_replicate.mpr ⟨by omega, rfl⟩),
    insertionSort_replicate_zero, List.replicate_succ,
    List.indexOf_cons_self]
  simp only [List.length_cons, List.length_replicate, Nat.cast_ofNat,
    CharP.cast_eq_zero]
  unfold pyRound1
  have hpos : (0 : ℚ) < ((m : ℚ) + 1) := by positivity
  have hm1 : (2001 : ℚ) ≤ (m : ℚ) + 1 := by exact_mod_cast hlo
  have h1 : ((0 : ℚ) + 1) / (((m + 1 : ℕ)) : ℚ) * 100 * 10 =
      1000 / ((m : ℚ) + 1) := by push_cast; ring
  rw [h1]
  have hfl : ⌊(1000 / ((m : ℚ) + 1))⌋ = 0 := by
    rw [Int.floor_eq_zero_iff]
    refine ⟨by positivity, ?_⟩
    rw [div_lt_one hpos]
    linarith
  have hlt : 1000 / ((m : ℚ) + 1) - (⌊(1000 / ((m : ℚ) + 1))⌋ : ℚ) <
      1 / 2 := by
    rw [hfl]
    simp only [Int.cast_zero, sub_zero]
    rw [div_lt_iff hpos]
    linarith
  unfold roundHalfEven
  rw [if_pos hlt, hfl]
  norm_num

/-- C10, counterexample, both defects.  (1) A single record whose price
subtotal is the empty string (a blank Excel cell) receives location
percentile 50.0, not the claimed 100.0 — the bare-`except` double-append
shifts the location list to `[0, 0]`.  (2) A batch of 2001 records whose
extractions all succeed collects 2001 location scores, and the lowest
rank's percentile `round(100·1/2001, 1)` is exactly 0.0, not strictly
above 0. -/
theorem claim_C10_counterexample :
    ((calculate_percentile_scores [C10badRec]).map
        (fun p => pctOfRecord p "location_percentile") = [some (50 : ℚ)] ∧
      (50 : ℚ) ≠ 100) ∧
    (extractOk C10manyRec = true ∧ C10bigBatch.length = 2001 ∧
      ∃ p' ∈ calculate_percentile_scores C10bigBatch,
        pctOfRecord p' "location_percentile" = some 0) := by
  have e1 : (calculate_percentile_scores [C10badRec]).map
      (fun p => pctOfRecord p "location_percentile")
      = [some (pctValue [0, 0] 0)] := rfl
  have e2 : pctValue [0, 0] 0 = 50 := by
    simp only [pctValue, List.insertionSort, List.orderedInsert,
      List.indexOf, List.findIdx, List.findIdx.go, Bool.cond_eq_ite,
      beq_iff_eq]
    norm_num [pyRound1, roundHalfEven]
  have hloc : locList C10bigBatch = List.replicate 2001 0 := by
    simp only [locList, C10bigBatch]
    exact flatMap_replicate_single 2001 C10manyRec _ 0 rfl
  have hmem0 : annotRecord (locList C10bigBatch) (bldList C10bigBatch)
      (convList C10bigBatch) (priceList C10bigBatch) (totList C10bigBatch)
      0 C10manyRec ∈ calculate_percentile_scores C10bigBatch := by
    unfold calculate_percentile_scores
    have hne : C10bigBatch.isEmpty = false := rfl
    rw [if_neg (by rw [hne]; simp)]
    refine List.mem_map.mpr ⟨(0, C10manyRec), ?_, rfl⟩
    rw [List.mk_mem_enum_iff_getElem?]
    show (List.replicate 2001 C10manyRec)[0]? = some C10manyRec
    rw [List.getElem?_replicate]
    norm_num
  have hgd : (List.replicate 2001 (0 : ℤ)).getD 0 0 = 0 := rfl
  have hpct : pctValue (List.replicate 2001 (0 : ℤ)) 0 = 0 :=
    pctValue_replicate_zero 2000 (by norm_num)
  have hlen : C10bigBatch.length = 2001 := by
    show (List.replicate 2001 C10manyRec).length = 2001
    rw [List.length_replicate]
  refine ⟨⟨by rw [e1, e2], by norm_num⟩, rfl, hlen, ?_⟩
  refine ⟨_, hmem0, ?_⟩
  rw [pctOfRecord_annot_loc, hloc, hgd, hpct]

/-- The percentile of the unique score of a singleton list is 100. -/
theorem pctValue_singleton (z : ℤ) : pctValue [z] z = 100 := by
  unfold pctValue
  rw [if_pos (List.mem_singleton.mpr rfl)]
  simp only [List.insertionSort, List.orderedInsert, List.indexOf_cons_self,
    List.length_singleton]
  norm_num [pyRound1, roundHalfEven]

/-- C10, amended: for batches of at most 999 records, every assigned
category percentile (and the total percentile) lies strictly above 0 and
at most 100, and so does the weighted composite; and a single record
receives percentile 100.0 in every category provided its score
extraction completes without an exception (`extractOk`).  (Without the
batch-size bound, a percentile can round down to exactly 0.0; without
the no-exception proviso, the counterexample above applies.) -/
theorem claim_C10 :
    (∀ ps : List PyDict, ps.length ≤ 999 →
      ∀ p' ∈ calculate_percentile_scores ps,
      ∃ L B C P T W : ℚ,
        pctOfRecord p' "location_percentile" = some L ∧
        pctOfRecord p' "building_percentile" = some B ∧
        pctOfRecord p' "convenience_percentile" = some C ∧
        pctOfRecord p' "price_percentile" = some P ∧
        pctOfRecord p' "total_percentile" = some T ∧
        weightedOfRecord p' = some W ∧
        (0 < L ∧ L ≤ 100) ∧ (0 < B ∧ B ≤ 100) ∧ (0 < C ∧ C ≤ 100) ∧
        (0 < P ∧ P ≤ 100) ∧ (0 < T ∧ T ≤ 100) ∧ (0 < W ∧ W ≤ 100)) ∧
    (∀ p : PyDict, extractOk p = true →
      ((calculate_percentile_scores [p]).map
        (fun q => pctOfRecord q "location_percentile") = [some (100 : ℚ)] ∧
       (calculate_percentile_scores [p]).map
        (fun q => pctOfRecord q "building_percentile") = [some (100 : ℚ)] ∧
       (calculate_percentile_scores [p]).map
        (fun q => pctOfRecord q "convenience_percentile") = [some (100 : ℚ)] ∧
       (calculate_percentile_scores [p]).map
        (fun q => pctOfRecord q "price_percentile") = [some (100 : ℚ)] ∧
       (calculate_percentile_scores [p]).map
        (fun q => pctOfRecord q "total_percentile") = [some (100 : ℚ)])) := by
  constructor
  · intro ps hlen p' hp'
    obtain ⟨i, p, hip, rfl⟩ := mem_calculate_percentile_scores hp'
    have hi : i < ps.length := by
      have h1 := List.mk_mem_enum_iff_getElem?.mp hip
      exact (List.getElem?_eq_some.mp h1).1
    have boundsOf : ∀ (lst : List ℤ),
        ps.length ≤ lst.length → lst.length ≤ 2 * ps.length →
        1 / 10 ≤ pctValue lst (lst.getD i 0) ∧
          pctValue lst (lst.getD i 0) ≤ 100 := by
      intro lst h1 h2
      exact pctValue_bounds _ _ (getD_mem_of_lt _ _ (lt_of_lt_of_le hi h1))
        (by omega)
    have hloc := boundsOf (locList ps)
      (by unfold locList
          exact le_length_flatMap _ _ (fun a _ => (recordContrib_len_loc a).1))
      (by unfold locList
          exact length_flatMap_le _ _ (fun a _ => (recordContrib_len_loc a).2))
    have hbld := boundsOf (bldList ps)
      (by unfold bldList
          exact le_length_flatMap _ _ (fun a _ => (recordContrib_len_bld a).1))
      (by unfold bldList
          exact length_flatMap_le _ _ (fun a _ => (recordContrib_len_bld a).2))
    have hconv := boundsOf (convList ps)
      (by unfold convList
          exact le_length_flatMap _ _ (fun a _ => (recordContrib_len_conv a).1))
      (by unfold convList
          exact length_flatMap_le _ _ (fun a _ => (recordContrib_len_conv a).2))
    have hpr := boundsOf (priceList ps)
      (by unfold priceList
          exact le_length_flatMap _ _ (fun a _ => (recordContrib_len_pr a).1))
      (by unfold priceList
          exact length_flatMap_le _ _ (fun a _ => (recordContrib_len_pr a).2))
    have htot := boundsOf (totList ps)
      (by unfold totList
          exact le_length_flatMap _ _ (fun a _ => (recordContrib_len_tot a).1))
      (by unfold totList
          exact length_flatMap_le _ _ (fun a _ => (recordContrib_len_tot a).2))
    refine ⟨_, _, _, _, _, _,
      pctOfRecord_annot_loc _ _ _ _ _ _ _,
      pctOfRecord_annot_bld _ _ _ _ _ _ _,
      pctOfRecord_annot_conv _ _ _ _ _ _ _,
      pctOfRecord_annot_price _ _ _ _ _ _ _,
      pctOfRecord_annot_tot _ _ _ _ _ _ _,
      weightedOfRecord_annot _ _ _ _ _ _ _,
      ⟨by linarith [hloc.1], hloc.2⟩,
      ⟨by linarith [hbld.1], hbld.2⟩,
      ⟨by linarith [hconv.1], hconv.2⟩,
      ⟨by linarith [hpr.1], hpr.2⟩,
      ⟨by linarith [htot.1], htot.2⟩, ?_, ?_⟩
    · have h1 : 1 / 2 <
        (pctValue (locList ps) ((locList ps).getD i 0) * 0.4
          + pctValue (bldList ps) ((bldList ps).getD i 0) * 0.3
          + pctValue (convList ps) ((convList ps).getD i 0) * 0.15
          + pctValue (priceList ps) ((priceList ps).getD i 0) * 0.15) * 100 := by
        nlinarith [hloc.1, hbld.1, hconv.1, hpr.1]
      have h2 := one_le_roundHalfEven _ h1
      have h2Q : (1 : ℚ) ≤ (roundHalfEven
        ((pctValue (locList ps) ((locList ps).getD i 0) * 0.4
          + pctValue (bldList ps) ((bldList ps).getD i 0) * 0.3
          + pctValue (convList ps) ((convList ps).getD i 0) * 0.15
          + pctValue (priceList ps) ((priceList ps).getD i 0) * 0.15) * 100) : ℚ) := by
        exact_mod_cast h2
      unfold pyRound2
      linarith
    · have h1 :
        (pctValue (locList ps) ((locList ps).getD i 0) * 0.4
          + pctValue (bldList ps) ((bldList ps).getD i 0) * 0.3
          + pctValue (convList ps) ((convList ps).getD i 0) * 0.15
          + pctValue (priceList ps) ((priceList ps).getD i 0) * 0.15) * 100
          ≤ ((10000 : ℤ) : ℚ) := by
        push_cast
        nlinarith [hloc.2, hbld.2, hconv.2, hpr.2]
      have h2 := roundHalfEven_le _ _ h1
      have h2Q : ((roundHalfEven
        ((pctValue (locList ps) ((locList ps).getD i 0) * 0.4
          + pctValue (bldList ps) ((bldList ps).getD i 0) * 0.3
          + pctValue (convList ps) ((convList ps).getD i 0) * 0.15
          + pctValue (priceList ps) ((priceList ps).getD i 0) * 0.15) * 100)) : ℚ)
          ≤ 10000 := by
        exact_mod_cast h2
      unfold pyRound2
      linarith
  · intro p hok
    simp only [extractOk, Bool.and_eq_true, Option.isSome_iff_exists] at hok
    obtain ⟨⟨⟨⟨⟨a, ha⟩, b, hb⟩, c, hc⟩, d, hd⟩, e, he⟩ := hok
    have hcon : recordContrib p = ⟨[a], [b], [c], [d], [e]⟩ := by
      unfold recordContrib
      rw [ha, hb, hc, hd, he]
    have hL : locList [p] = [a] := by simp [locList, hcon]
    have hB : bldList [p] = [b] := by simp [bldList, hcon]
    have hC : convList [p] = [c] := by simp [convList, hcon]
    have hP : priceList [p] = [d] := by simp [priceList, hcon]
    have hT : totList [p] = [e] := by simp [totList, hcon]
    have hcalc : calculate_percentile_scores [p]
        = [annotRecord [a] [b] [c] [d] [e] 0 p] := by
      rw [show calculate_percentile_scores [p]
        = [annotRecord (locList [p]) (bldList [p]) (convList [p])
            (priceList [p]) (totList [p]) 0 p] from rfl]
      rw [hL, hB, hC, hP, hT]
    refine ⟨?_, ?_, ?_, ?_, ?_⟩ <;>
      · rw [hcalc]
        simp only [List.map_cons, List.map_nil, pctOfRecord_annot_loc,
          pctOfRecord_annot_bld, pctOfRecord_annot_conv,
          pctOfRecord_annot_price, pctOfRecord_annot_tot, List.getD]
        simp [pctValue_singleton]

/-- C10 witness: the amended claim instantiated on the singleton batch
`[C10okRec]`. -/
theorem claim_C10_witness :
    ∃ L B C P T W : ℚ,
      pctOfRecord (annotRecord (locList [C10okRec]) (bldList [C10okRec])
        (convList [C10okRec]) (priceList [C10okRec]) (totList [C10okRec])
        0 C10okRec) "location_percentile" = some L ∧
      pctOfRecord (annotRecord (locList [C10okRec]) (bldList [C10okRec])
        (convList [C10okRec]) (priceList [C10okRec]) (totList [C10okRec])
        0 C10okRec) "building_percentile" = some B ∧
      pctOfRecord (annotRecord (locList [C10okRec]) (bldList [C10okRec])
        (convList [C10okRec]) (priceList [C10okRec]) (totList [C10okRec])
        0 C10okRec) "convenience_percentile" = some C ∧
      pctOfRecord (annotRecord (locList [C10okRec]) (bldList [C10okRec])
        (convList [C10okRec]) (priceList [C10okRec]) (totList [C10okRec])
        0 C10okRec) "price_percentile" = some P ∧
      pctOfRecord (annotRecord (locList [C10okRec]) (bldList [C10okRec])
        (convList [C10okRec]) (priceList [C10okRec]) (totList [C10okRec])
        0 C10okRec) "total_percentile" = some T ∧
      weightedOfRecord (annotRecord (locList [C10okRec]) (bldList [C10okRec])
        (convList [C10okRec]) (priceList [C10okRec]) (totList [C10okRec])
        0 C10okRec) = some W ∧
      (0 < L ∧ L ≤ 100) ∧ (0 < B ∧ B ≤ 100) ∧ (0 < C ∧ C ≤ 100) ∧
      (0 < P ∧ P ≤ 100) ∧ (0 < T ∧ T ≤ 100) ∧ (0 < W ∧ W ≤ 100) :=
  claim_C10.1 [C10okRec] (by norm_num) _ (by exact List.mem_cons_self _ _)

/-! # Claim C1 -/

theorem aget_append {α : Type} (k : String) (l1 l2 : List (String × α)) :
    aget k (l1 ++ l2) =
      match aget k l1 with
      | some v => some v
      | none => aget k l2 := by
  induction l1 with
  | nil => simp [aget]
  | cons kv rest ih =>
    obtain ⟨k', v'⟩ := kv
    by_cases h : k' = k
    · simp [aget, h]
    · simp [aget, h, ih]

theorem aget_map_update {α : Type} (k : String) (f : α → α)
    (l : List (String × α)) :
    aget k (l.map (fun kv => if kv.1 = k then (k, f kv.2) else kv)) =
      (aget k l).map f := by
  induction l with
  | nil => simp [aget]
  | cons kv rest ih =>
    obtain ⟨k', v'⟩ := kv
    simp only [List.map_cons]
    by_cases h : k' = k
    · rw [if_pos h]
      simp [aget, h]
    · rw [if_neg h]
      simp [aget, h, ih]

theorem aget_map_update_ne {α : Type} (k k' : String) (hne : k' ≠ k)
    (f : α → α) (l : List (String × α)) :
    aget k (l.map (fun kv => if kv.1 = k' then (k', f kv.2) else kv)) =
      aget k l := by
  induction l with
  | nil => simp [aget]
  | cons kv rest ih =>
    obtain ⟨k₀, v₀⟩ := kv
    simp only [List.map_cons]
    by_cases h : k₀ = k'
    · rw [if_pos h]
      simp [aget, h, hne, ih]
    · rw [if_neg h]
      by_cases h1 : k₀ = k
      · simp [aget, h1]
      · simp [aget, h1, ih]

theorem groupAppend_get_same (acc : List (String × ScoreGroup)) (h : String)
    (s : PyVal) (w : ℚ) (p : PyDict) :
    aget h (groupAppend acc h s w p) =
      some (match aget h acc with
        | some g => ⟨g.scores ++ [s], g.weights ++ [w], g.props ++ [p]⟩
        | none => ⟨[s], [w], [p]⟩) := by
  unfold groupAppend
  cases hg : aget h acc with
  | none =>
    rw [aget_append]
    rw [hg]
    simp [aget]
  | some g =>
    have := aget_map_update h
      (fun g : ScoreGroup => ⟨g.scores ++ [s], g.weights ++ [w], g.props ++ [p]⟩) acc
    rw [hg] at this
    simpa using this

theorem groupAppend_get_other (acc : List (String × ScoreGroup))
    (h h' : String) (hne : h' ≠ h) (s : PyVal) (w : ℚ) (p : PyDict) :
    aget h (groupAppend acc h' s w p) = aget h acc := by
  unfold groupAppend
  cases hg : aget h' acc with
  | none =>
    rw [aget_append]
    cases hh : aget h acc with
    | none => simp [aget, hne]
    | some g => simp
  | some g =>
    simpa using aget_map_update_ne h h' hne
      (fun g : ScoreGroup =>
        ⟨g.scores ++ [s], g.weights ++ [w], g.props ++ [p]⟩) acc

/-- Characterisation of the grouping fold at one key. -/
theorem obsFold_get (obs : List (String × PyVal × ℚ × PyDict))
    (acc : List (String × ScoreGroup)) (h : String) :
    aget h (obs.foldl obsStep acc) =
      match aget h acc with
      | some g => some (extendGroup g (obsFor h obs))
      | none =>
        if (obsFor h obs).isEmpty then none
        else some (extendGroup ⟨[], [], []⟩ (obsFor h obs)) := by
  induction obs generalizing acc with
  | nil =>
    cases hg : aget h acc <;> simp [obsFor, extendGroup, hg]
  | cons o rest ih =>
    simp only [List.foldl_cons]
    by_cases ho : o.1 = h
    · have hstep : aget h (obsStep acc o) =
          some (match aget h acc with
            | some g => ⟨g.scores ++ [o.2.1], g.weights ++ [o.2.2.1],
                g.props ++ [o.2.2.2]⟩
            | none => ⟨[o.2.1], [o.2.2.1], [o.2.2.2]⟩) := by
        unfold obsStep
        rw [ho]
        exact groupAppend_get_same acc h _ _ _
      rw [ih (obsStep acc o), hstep]
      have hfil : obsFor h (o :: rest) = o :: obsFor h rest := by
        simp [obsFor, List.filter_cons, ho]
      cases hg : aget h acc with
      | some g =>
        simp only [hg, hfil, extendGroup]
        simp
      | none =>
        simp only [hg, hfil, extendGroup]
        simp
    · have hstep : aget h (obsStep acc o) = aget h acc := by
        unfold obsStep
        exact groupAppend_get_other acc h o.1 ho _ _ _
      rw [ih (obsStep acc o), hstep]
      have hfil : obsFor h (o :: rest) = obsFor h rest := by
        simp [obsFor, List.filter_cons, ho]
      rw [hfil]

/-- The grouping pass equals the fold of the flattened observation
stream. -/
theorem gatherRounds_eq_obs (rounds : List (List PyDict)) :
    gatherRounds rounds = (roundObs rounds).foldl obsStep [] := by
  unfold gatherRounds roundObs
  suffices h : ∀ (l : List (ℕ × List PyDict)) (acc : List (String × ScoreGroup)),
      l.foldl (fun acc rr =>
        rr.2.foldl (fun acc p =>
          groupAppend acc (pyStr (dgetD "hidx" PyVal.vnone p))
            (dgetD "total_score" (PyVal.vint 0) p)
            (((rr.1 + 1 : ℕ) : ℚ) / (rounds.length : ℚ)) p) acc) acc
      = (l.flatMap (fun rr => rr.2.map (fun p =>
          (pyStr (dgetD "hidx" PyVal.vnone p),
            dgetD "total_score" (PyVal.vint 0) p,
            ((rr.1 + 1 : ℕ) : ℚ) / (rounds.length : ℚ), p)))).foldl obsStep acc by
    exact h rounds.enum []
  intro l
  induction l with
  | nil => intro acc; rfl
  | cons rr rest ih =>
    intro acc
    simp only [List.foldl_cons, List.flatMap_cons, List.foldl_append]
    rw [List.foldl_map]
    exact ih _

theorem cwasFold_error (gs : List (String × ScoreGroup)) (e : PyExn) :
    gs.foldl (fun acc kv =>
      match acc with
      | .error e => .error e
      | .ok l =>
        match combineGroup kv.2 with
        | none => .error PyExn.exn
        | some p => .ok (l ++ [p])) (Except.error e) = .error e := by
  induction gs with
  | nil => rfl
  | cons kv rest ih => simpa using ih

theorem cwasFold_ok (gs : List (String × ScoreGroup)) (acc out : List PyDict)
    (h : gs.foldl (fun acc kv =>
      match acc with
      | .error e => .error e
      | .ok l =>
        match combineGroup kv.2 with
        | none => .error PyExn.exn
        | some p => .ok (l ++ [p])) (Except.ok acc) = .ok out) :
    ∀ p ∈ out, p ∈ acc ∨ ∃ kv ∈ gs, combineGroup kv.2 = some p := by
  induction gs generalizing acc with
  | nil =>
    intro p hp
    simp only [List.foldl_nil, Except.ok.injEq] at h
    subst h
    exact Or.inl hp
  | cons kv rest ih =>
    intro p hp
    simp only [List.foldl_cons] at h
    cases hc : combineGroup kv.2 with
    | none =>
      rw [hc] at h
      simp only [] at h
      rw [cwasFold_error] at h
      exact absurd h (by simp)
    | some q =>
      rw [hc] at h
      simp only [] at h
      rcases ih _ h p hp with hmem | ⟨kv', hkv', hc'⟩
      · rcases List.mem_append.mp hmem with h1 | h1
        · exact Or.inl h1
        · right
          refine ⟨kv, List.mem_cons_self _ _, ?_⟩
          rw [hc]
          simpa using (List.mem_singleton.mp h1) ▸ rfl
      · exact Or.inr ⟨kv', List.mem_cons_of_mem _ hkv', hc'⟩

theorem aget_eq_none_iff {α : Type} (k : String) (l : List (String × α)) :
    aget k l = none ↔ k ∉ l.map Prod.fst := by
  induction l with
  | nil => simp [aget]
  | cons kv rest ih =>
    obtain ⟨k', v'⟩ := kv
    by_cases h : k' = k
    · simp [aget, h]
    · simp [aget, h, ih, Ne.symm h]

theorem groupAppend_keys (acc : List (String × ScoreGroup)) (h : String)
    (s : PyVal) (w : ℚ) (p : PyDict) :
    (groupAppend acc h s w p).map Prod.fst =
      match aget h acc with
      | some _ => acc.map Prod.fst
      | none => acc.map Prod.fst ++ [h] := by
  unfold groupAppend
  cases hg : aget h acc with
  | none => simp
  | some g =>
    simp only [List.map_map]
    congr 1
    funext kv
    by_cases hk : kv.1 = h
    · simp [Function.comp, hk]
    · simp [Function.comp, hk]

theorem obsFold_keys_nodup (obs : List (String × PyVal × ℚ × PyDict))
    (acc : List (String × ScoreGroup))
    (hnd : (acc.map Prod.fst).Nodup) :
    ((obs.foldl obsStep acc).map Prod.fst).Nodup := by
  induction obs generalizing acc with
  | nil => simpa
  | cons o rest ih =>
    simp only [List.foldl_cons]
    refine ih _ ?_
    unfold obsStep
    rw [groupAppend_keys]
    cases hg : aget o.1 acc with
    | some g => simpa
    | none =>
      simp only []
      have : o.1 ∉ acc.map Prod.fst := (aget_eq_none_iff _ _).mp hg
      simp [List.nodup_append, hnd, this]

theorem aget_of_mem_nodup {α : Type} (l : List (String × α))
    (hnd : (l.map Prod.fst).Nodup) (kv : String × α) (hm : kv ∈ l) :
    aget kv.1 l = some kv.2 := by
  induction l with
  | nil => simp at hm
  | cons kv0 rest ih =>
    rcases List.mem_cons.mp hm with h1 | h1
    · subst h1
      obtain ⟨k', v'⟩ := kv
      simp [aget]
    · obtain ⟨k0, v0⟩ := kv0
      have hk : k0 ≠ kv.1 := by
        simp only [List.map_cons, List.nodup_cons] at hnd
        intro hEq
        exact hnd.1 (hEq ▸ (List.mem_map.mpr ⟨kv, h1, rfl⟩))
      simp only [aget, hk, if_neg]
      exact ih (by simpa using (List.nodup_cons.mp (by simpa using hnd)).2) h1

/-- The observations filed under `h` project to the claim-side per-round
score list: raw scores, weights `r / roundCount`, and records whose
rendered identifier is `h`. -/
theorem obsFor_scores (rounds : List (List PyDict)) (h : String) :
    (obsFor h (roundObs rounds)).map (fun o => o.2.1) =
      (specRoundScores rounds h).map (fun rq => rq.2) := by
  unfold obsFor roundObs specRoundScores
  rw [List.filter_flatMap, List.map_flatMap, List.map_flatMap]
  congr 1
  funext rr
  rw [List.filter_map, List.map_map, List.map_map]
  rfl

/-- Weight projection of the observations filed under `h`. -/
theorem obsFor_weights (rounds : List (List PyDict)) (h : String) :
    (obsFor h (roundObs rounds)).map (fun o => o.2.2.1) =
      (specRoundScores rounds h).map
        (fun rq => ((rq.1 : ℕ) : ℚ) / (rounds.length : ℚ)) := by
  unfold obsFor roundObs specRoundScores
  rw [List.filter_flatMap, List.map_flatMap, List.map_flatMap]
  congr 1
  funext rr
  rw [List.filter_map, List.map_map, List.map_map]
  rfl

/-- Every observation filed under `h` carries identifier `h`, which is
the rendered `hidx` of its record. -/
theorem obsFor_ident (rounds : List (List PyDict)) (h : String)
    (o : String × PyVal × ℚ × PyDict) (ho : o ∈ obsFor h (roundObs rounds)) :
    o.1 = h ∧ o.1 = pyStr (dgetD "hidx" PyVal.vnone o.2.2.2) := by
  have h1 := List.mem_filter.mp ho
  constructor
  · simpa using h1.2
  · have h2 := h1.1
    unfold roundObs at h2
    rcases List.mem_flatMap.mp h2 with ⟨rr, _, hmem⟩
    rcases List.mem_map.mp hmem with ⟨p, _, rfl⟩
    rfl

/-- Bridge between the code-side (`npNums` on the raw scores) and the
claim-side (`specNumScores`) numeric views. -/
theorem npNums_specNumScores (srs : List (ℕ × PyVal)) (qs : List ℚ)
    (h : npNums (srs.map (fun rq => rq.2)) = some qs) :
    ∃ occ : List (ℕ × ℚ), specNumScores srs = some occ ∧
      occ.map (fun rq => rq.1) = srs.map (fun rq => rq.1) ∧
      occ.map (fun rq => rq.2) = qs := by
  induction srs generalizing qs with
  | nil =>
    simp only [List.map_nil, npNums, Option.some.injEq] at h
    exact ⟨[], rfl, by simp, by simp [← h]⟩
  | cons rq rest ih =>
    simp only [List.map_cons, npNums] at h
    cases hn : npNum rq.2 with
    | none => rw [hn] at h; simp at h
    | some q =>
      rw [hn] at h
      simp only [] at h
      cases hr : npNums (rest.map (fun rq => rq.2)) with
      | none => rw [hr] at h; simp at h
      | some qs' =>
        rw [hr] at h
        simp only [Option.some.injEq] at h
        rcases ih qs' hr with ⟨occ, hocc, h1, h2⟩
        refine ⟨(rq.1, q) :: occ, ?_, ?_, ?_⟩
        · simp [specNumScores, hn, hocc]
        · simp [h1]
        · simp [h2, ← h]

/-- `npNums` preserves length. -/
theorem npNums_length (vs : List PyVal) (qs : List ℚ)
    (h : npNums vs = some qs) : qs.length = vs.length := by
  induction vs generalizing qs with
  | nil => simp [npNums] at h; simp [← h]
  | cons v rest ih =>
    simp only [npNums] at h
    cases hn : npNum v with
    | none => rw [hn] at h; simp at h
    | some q =>
      rw [hn] at h
      cases hr : npNums rest with
      | none => rw [hr] at h; simp at h
      | some qs' =>
        rw [hr] at h
        simp only [Option.some.injEq] at h
        simp [← h, ih qs' hr]

/-- `np.average` on the projections equals the claim-side weighted
average. -/
theorem npAverage_spec (n : ℕ) (occ : List (ℕ × ℚ)) :
    npAverage (occ.map (fun rq => rq.2))
      (occ.map (fun rq => ((rq.1 : ℕ) : ℚ) / (n : ℚ)))
      = specWeightedAvg n occ := by
  unfold npAverage specWeightedAvg
  congr 1
  induction occ with
  | nil => simp
  | cons rq rest ih =>
    simp only [List.map_cons, List.zipWith_cons_cons, List.sum_cons, ih]
    ring

/-- Variance of a single observation is zero. -/
theorem specVariance_singleton (q : ℚ) : specVariance [q] = 0 := by
  simp [specVariance]

/-- The code's variance (`np.var`, guarded by `1 < n`) coincides with
the claim-side unweighted variance on non-empty lists. -/
theorem variance_eq_spec (qs : List ℚ) (hne : qs ≠ []) :
    (if 1 < qs.length then npVar qs else 0) = specVariance qs := by
  by_cases h : 1 < qs.length
  · rw [if_pos h]
    rfl
  · rw [if_neg h]
    match qs, hne with
    | [q], _ => simp [specVariance_singleton]
    | q1 :: q2 :: rest, _ => simp at h

/-- `getLastD` of a non-empty list is a member. -/
theorem getLastD_mem {α : Type} (l : List α) (d : α) (h : l ≠ []) :
    l.getLastD d ∈ l := by
  induction l generalizing d with
  | nil => exact absurd rfl h
  | cons a rest ih =>
    rw [List.getLastD_cons]
    cases hr : rest with
    | nil => simp [List.getLastD]
    | cons b rest' =>
      subst hr
      exact List.mem_cons_of_mem _ (ih a (by simp))

/-- C1: for every non-empty list of round results that the combine step
accepts, each combined record is built from exactly the per-round raw
scores of its identifier: the final `total_score` is the weighted
average with round `r` (1-based) weighted `r / roundCount`, rounded to
the nearest integer (half to even); `score_variance` is the rounded
unweighted population variance of the raw scores; and `is_converged`
holds exactly when that variance is at most `CONVERGENCE_THRESHOLD`. -/
theorem claim_C1 (rounds : List (List PyDict)) (hne : rounds ≠ [])
    (out : List PyDict)
    (hok : calculate_weighted_average_scores rounds = Except.ok out)
    (p : PyDict) (hp : p ∈ out) :
    ∃ occ : List (ℕ × ℚ),
      specNumScores
        (specRoundScores rounds (pyStr (dgetD "hidx" PyVal.vnone p)))
        = some occ ∧
      occ ≠ [] ∧
      dget "total_score" p =
        some (.vint (roundHalfEven (specWeightedAvg rounds.length occ))) ∧
      dget "score_variance" p =
        some (.vfloat (pyRound2 (specVariance (occ.map (fun rq => rq.2))))) ∧
      dget "is_converged" p =
        some (.vbool (decide (specVariance (occ.map (fun rq => rq.2))
          ≤ CONVERGENCE_THRESHOLD))) := by
  unfold calculate_weighted_average_scores at hok
  have hE : rounds.isEmpty = false := by
    cases rounds with
    | nil => exact absurd rfl hne
    | cons r rest => rfl
  rw [hE] at hok
  simp only [Bool.false_eq_true, if_false] at hok
  rcases cwasFold_ok _ [] out hok p hp with h0 | ⟨kv, hkvmem, hcomb⟩
  · simp at h0
  have hkv : kv ∈ gatherRounds rounds := List.mem_of_mem_filter hkvmem
  have hscne : kv.2.scores ≠ [] := by
    have h1 := (List.mem_filter.mp hkvmem).2
    simp only [Bool.not_eq_true'] at h1
    intro hEq
    rw [hEq] at h1
    simp at h1
  have hnd : ((gatherRounds rounds).map Prod.fst).Nodup := by
    rw [gatherRounds_eq_obs]
    exact obsFold_keys_nodup _ [] (by simp)
  have hag : aget kv.1 (gatherRounds rounds) = some kv.2 :=
    aget_of_mem_nodup _ hnd kv hkv
  rw [gatherRounds_eq_obs, obsFold_get] at hag
  have hagnil : aget kv.1 ([] : List (String × ScoreGroup)) = none := rfl
  rw [hagnil] at hag
  simp only [] at hag
  by_cases hOE : (obsFor kv.1 (roundObs rounds)).isEmpty
  · rw [if_pos hOE] at hag
    simp at hag
  rw [if_neg hOE] at hag
  have hkv2 : kv.2 = extendGroup ⟨[], [], []⟩ (obsFor kv.1 (roundObs rounds)) := by
    have := hag
    exact (Option.some.injEq _ _ ▸ this).symm
  -- components of the group
  have hscores : kv.2.scores =
      (specRoundScores rounds kv.1).map (fun rq => rq.2) := by
    rw [hkv2]
    simp only [extendGroup, List.nil_append]
    exact obsFor_scores rounds kv.1
  have hweights : kv.2.weights =
      (specRoundScores rounds kv.1).map
        (fun rq => ((rq.1 : ℕ) : ℚ) / (rounds.length : ℚ)) := by
    rw [hkv2]
    simp only [extendGroup, List.nil_append]
    exact obsFor_weights rounds kv.1
  have hprops : kv.2.props =
      (obsFor kv.1 (roundObs rounds)).map (fun o => o.2.2.2) := by
    rw [hkv2]
    simp [extendGroup]
  -- combineGroup shape
  unfold combineGroup at hcomb
  cases hnp : npNums kv.2.scores with
  | none => rw [hnp] at hcomb; simp at hcomb
  | some qs =>
  rw [hnp] at hcomb
  simp only [Option.some.injEq] at hcomb
  -- numeric bridge
  rw [hscores] at hnp
  rcases npNums_specNumScores _ _ hnp with ⟨occ, hocc, hocc1, hocc2⟩
  have hqslen : qs.length = kv.2.scores.length := by
    rw [hscores]
    exact npNums_length _ _ hnp
  have hqsne : qs ≠ [] := by
    intro hEq
    rw [hEq] at hqslen
    exact hscne (List.length_eq_zero.mp hqslen.symm)
  have hoccne : occ ≠ [] := by
    intro hEq
    rw [hEq] at hocc2
    exact hqsne (by simpa using hocc2.symm)
  -- the base record and its identifier
  have hpropsne : kv.2.props ≠ [] := by
    rw [hprops]
    intro hEq
    rw [List.map_eq_nil] at hEq
    rw [hEq] at hOE
    simp at hOE
  have hbase := getLastD_mem kv.2.props [] hpropsne
  rw [hprops] at hbase
  rcases List.mem_map.mp hbase with ⟨o, ho, hoeq⟩
  have hid := obsFor_ident rounds kv.1 o ho
  have hbid : pyStr (dgetD "hidx" PyVal.vnone (kv.2.props.getLastD [])) = kv.1 := by
    rw [hprops]
    rw [← hoeq, ← hid.2, hid.1]
  -- the final record is the dset chain over the base
  rw [← hcomb]
  -- identifier of the final record
  have hgetid : ∀ d : PyDict,
      dgetD "hidx" PyVal.vnone (dset "reanalysis_comment"
        (PyVal.vstr ("다중 라운드 재평가 완료 (라운드: " ++ toString kv.2.scores.length
          ++ ", 분산: " ++ qFixed2 (if 1 < kv.2.scores.length then npVar qs else 0) ++ ")"))
        (dset "is_converged"
          (PyVal.vbool (decide ((if 1 < kv.2.scores.length then npVar qs else 0)
            ≤ CONVERGENCE_THRESHOLD)))
          (dset "score_rounds" (PyVal.vlist kv.2.scores)
            (dset "score_variance"
              (PyVal.vfloat (pyRound2 (if 1 < kv.2.scores.length then npVar qs else 0)))
              (dset "total_score"
                (PyVal.vint (roundHalfEven (npAverage qs kv.2.weights))) d))))) =
        dgetD "hidx" PyVal.vnone d := by
    intro d
    unfold dgetD
    rw [dget_dset_ne _ _ _ _ (by decide), dget_dset_ne _ _ _ _ (by decide),
      dget_dset_ne _ _ _ _ (by decide), dget_dset_ne _ _ _ _ (by decide),
      dget_dset_ne _ _ _ _ (by decide)]
  refine ⟨occ, ?_, hoccne, ?_, ?_, ?_⟩
  · rw [hgetid, hbid]
    exact hocc
  · rw [dget_dset_ne _ _ _ _ (by decide), dget_dset_ne _ _ _ _ (by decide),
      dget_dset_ne _ _ _ _ (by decide), dget_dset_ne _ _ _ _ (by decide),
      dget_dset_self]
    congr 2
    -- weighted average
    rw [hweights]
    have hw : (specRoundScores rounds kv.1).map
        (fun rq => ((rq.1 : ℕ) : ℚ) / (rounds.length : ℚ))
        = occ.map (fun rq => ((rq.1 : ℕ) : ℚ) / (rounds.length : ℚ)) := by
      have := congrArg
        (List.map (fun k : ℕ => ((k : ℕ) : ℚ) / (rounds.length : ℚ))) hocc1
      simpa [List.map_map, Function.comp] using this.symm
    rw [hw, ← hocc2, npAverage_spec]
  · rw [dget_dset_ne _ _ _ _ (by decide), dget_dset_ne _ _ _ _ (by decide),
      dget_dset_ne _ _ _ _ (by decide), dget_dset_self]
    congr 3
    rw [← hqslen] at *
    rw [variance_eq_spec qs hqsne, hocc2]
  · rw [dget_dset_ne _ _ _ _ (by decide), dget_dset_self]
    congr 3
    rw [← hqslen] at *
    rw [variance_eq_spec qs hqsne, hocc2]

/-- Arithmetic of the `C1rounds` example: variance 25. -/
theorem C1_var_eq : npVar C1qs = 25 := by
  norm_num [npVar, qMean, C1qs]

/-- Arithmetic of the `C1rounds` example: weighted average rounds to 87. -/
theorem C1_avg_eq : roundHalfEven (npAverage C1qs C1ws) = 87 := by
  norm_num [npAverage, C1qs, C1ws, roundHalfEven]

/-- C1 witness: the combine step on the spec's example — two rounds of
scores `[80, 90]` for identifier `"1"` — and the claim instantiated on
it: the final `total_score` is 87, the variance is 25.0, and with
threshold 5.0 `is_converged` is false. -/
theorem claim_C1_witness :
    C1rounds ≠ [] ∧
    calculate_weighted_average_scores C1rounds = Except.ok [C1chain] ∧
    dget "total_score" C1chain = some (.vint 87) ∧
    dget "score_variance" C1chain = some (.vfloat 25) ∧
    dget "is_converged" C1chain = some (.vbool false) ∧
    (∃ occ : List (ℕ × ℚ),
      specNumScores
        (specRoundScores C1rounds (pyStr (dgetD "hidx" PyVal.vnone C1chain)))
        = some occ ∧
      occ ≠ [] ∧
      dget "total_score" C1chain =
        some (.vint (roundHalfEven (specWeightedAvg C1rounds.length occ))) ∧
      dget "score_variance" C1chain =
        some (.vfloat (pyRound2 (specVariance (occ.map (fun rq => rq.2))))) ∧
      dget "is_converged" C1chain =
        some (.vbool (decide (specVariance (occ.map (fun rq => rq.2))
          ≤ CONVERGENCE_THRESHOLD)))) := by
  have hEval : calculate_weighted_average_scores C1rounds
      = Except.ok [C1chain] := rfl
  have h1 : dget "total_score" C1chain
      = some (.vint (roundHalfEven (npAverage C1qs C1ws))) := rfl
  have h2 : dget "score_variance" C1chain
      = some (.vfloat (pyRound2 (npVar C1qs))) := rfl
  have h3 : dget "is_converged" C1chain
      = some (.vbool (decide (npVar C1qs ≤ CONVERGENCE_THRESHOLD))) := rfl
  refine ⟨by simp [C1rounds], hEval, ?_, ?_, ?_,
    claim_C1 C1rounds (by simp [C1rounds]) [C1chain] hEval C1chain
      (List.mem_cons_self _ _)⟩
  · rw [h1, C1_avg_eq]
  · rw [h2, C1_var_eq]
    norm_num [pyRound2, roundHalfEven]
  · rw [h3, C1_var_eq]
    have : ¬ ((25 : ℚ) ≤ CONVERGENCE_THRESHOLD) := by
      norm_num [CONVERGENCE_THRESHOLD]
    simp [this]

/-! # Claims C3, C4, C9 : merge-loop lemmas -/

theorem mergeStep_skip (expected : List String) (st : MergeState)
    (it : PyDict)
    (h : expected.contains (itemHidx it) = false ∨
      st.processed.contains (itemHidx it) = true) :
    mergeStep expected st it = st := by
  unfold mergeStep
  rcases h with h | h
  · rw [h]
    simp
  · rw [h]
    simp

theorem mergeStep_merge (expected : List String) (st : MergeState)
    (it : PyDict) (orig : PyDict)
    (hE : expected.contains (itemHidx it) = true)
    (hP : st.processed.contains (itemHidx it) = false)
    (hm : aget (itemHidx it) st.map = some orig) :
    mergeStep expected st it =
      { map := aset (itemHidx it) (dupdate orig (coerceItem it)) st.map
        finalRev := dupdate orig (coerceItem it) :: st.finalRev
        processed := itemHidx it :: st.processed } := by
  unfold mergeStep
  rw [hE, hP, hm]
  simp

theorem mergeStep_processed_mono (expected : List String) (st : MergeState)
    (it : PyDict) (h : String) (hm : h ∈ st.processed) :
    h ∈ (mergeStep expected st it).processed := by
  unfold mergeStep
  split
  · split
    · exact List.mem_cons_of_mem _ hm
    · exact hm
  · exact hm

theorem fold_processed_mono (expected : List String) (l : List PyDict)
    (st : MergeState) (h : String) (hm : h ∈ st.processed) :
    h ∈ (l.foldl (mergeStep expected) st).processed := by
  induction l generalizing st with
  | nil => exact hm
  | cons it rest ih =>
    exact ih _ (mergeStep_processed_mono expected st it h hm)

theorem mergeStep_finalRev_mono (expected : List String) (st : MergeState)
    (it : PyDict) (r : PyDict) (hm : r ∈ st.finalRev) :
    r ∈ (mergeStep expected st it).finalRev := by
  unfold mergeStep
  split
  · split
    · exact List.mem_cons_of_mem _ hm
    · exact hm
  · exact hm

theorem fold_finalRev_mono (expected : List String) (l : List PyDict)
    (st : MergeState) (r : PyDict) (hm : r ∈ st.finalRev) :
    r ∈ (l.foldl (mergeStep expected) st).finalRev := by
  induction l generalizing st with
  | nil => exact hm
  | cons it rest ih =>
    exact ih _ (mergeStep_finalRev_mono expected st it r hm)

theorem mergeStep_map_isSome (expected : List String) (st : MergeState)
    (it : PyDict) (h : String) (hm : (aget h st.map).isSome) :
    (aget h (mergeStep expected st it).map).isSome := by
  unfold mergeStep
  split
  · split
    · by_cases hEq : itemHidx it = h
      · subst hEq
        simp [aget_aset_self]
      · simpa [aget_aset_ne h (itemHidx it) _ _ hEq] using hm
    · exact hm
  · exact hm

theorem mergeStep_processed_new (expected : List String) (st : MergeState)
    (it : PyDict) (h : String)
    (hm : h ∈ (mergeStep expected st it).processed) :
    h ∈ st.processed ∨ h = itemHidx it := by
  unfold mergeStep at hm
  revert hm
  split
  · split
    · intro hm
      rcases List.mem_cons.mp hm with h1 | h1
      · exact Or.inr h1
      · exact Or.inl h1
    · exact Or.inl
  · exact Or.inl

theorem fold_processed_new (expected : List String) (l : List PyDict)
    (st : MergeState) (h : String)
    (hm : h ∈ (l.foldl (mergeStep expected) st).processed) :
    h ∈ st.processed ∨ h ∈ l.map itemHidx := by
  induction l generalizing st with
  | nil => exact Or.inl hm
  | cons it rest ih =>
    rcases ih _ hm with h1 | h1
    · rcases mergeStep_processed_new expected st it h h1 with h2 | h2
      · exact Or.inl h2
      · exact Or.inr (by simp [h2])
    · exact Or.inr (List.mem_cons_of_mem _ h1)

theorem mergeStep_processed_expected (expected : List String)
    (st : MergeState) (it : PyDict) (h : String)
    (hinv : ∀ h' ∈ st.processed, h' ∈ expected)
    (hm : h ∈ (mergeStep expected st it).processed) : h ∈ expected := by
  rcases mergeStep_processed_new expected st it h hm with h1 | h1
  · exact hinv h h1
  · subst h1
    unfold mergeStep at hm
    revert hm
    split
    · next hc =>
      intro _
      have := (Bool.and_eq_true _ _).mp hc
      simpa using this.1
    · intro hm
      exact hinv _ hm

theorem fold_processed_expected (expected : List String) (l : List PyDict)
    (st : MergeState) (hinv : ∀ h' ∈ st.processed, h' ∈ expected) :
    ∀ h ∈ (l.foldl (mergeStep expected) st).processed, h ∈ expected := by
  induction l generalizing st with
  | nil => exact hinv
  | cons it rest ih =>
    exact ih _ (fun h' hm => mergeStep_processed_expected expected st it h' hinv hm)

theorem mergeStep_processed_nodup (expected : List String) (st : MergeState)
    (it : PyDict) (hnd : st.processed.Nodup) :
    (mergeStep expected st it).processed.Nodup := by
  unfold mergeStep
  split
  · next hc =>
    split
    · have := (Bool.and_eq_true _ _).mp hc
      have hnm : itemHidx it ∉ st.processed := by
        have h2 := this.2
        simp only [Bool.not_eq_true'] at h2
        simpa using h2
      exact List.nodup_cons.mpr ⟨hnm, hnd⟩
    · exact hnd
  · exact hnd

theorem fold_processed_nodup (expected : List String) (l : List PyDict)
    (st : MergeState) (hnd : st.processed.Nodup) :
    (l.foldl (mergeStep expected) st).processed.Nodup := by
  induction l generalizing st with
  | nil => exact hnd
  | cons it rest ih =>
    exact ih _ (mergeStep_processed_nodup expected st it hnd)

theorem mergeStep_counts (expected : List String) (st : MergeState)
    (it : PyDict)
    (hlen : st.finalRev.length = st.processed.length) :
    (mergeStep expected st it).finalRev.length =
      (mergeStep expected st it).processed.length := by
  unfold mergeStep
  split
  · split
    · simpa using hlen
    · exact hlen
  · exact hlen

theorem fold_counts (expected : List String) (l : List PyDict)
    (st : MergeState)
    (hlen : st.finalRev.length = st.processed.length) :
    (l.foldl (mergeStep expected) st).finalRev.length =
      (l.foldl (mergeStep expected) st).processed.length := by
  induction l generalizing st with
  | nil => exact hlen
  | cons it rest ih =>
    exact ih _ (mergeStep_counts expected st it hlen)

theorem fold_map_unprocessed (expected : List String) (l : List PyDict)
    (st : MergeState) (h : String)
    (hp : h ∉ (l.foldl (mergeStep expected) st).processed) :
    aget h (l.foldl (mergeStep expected) st).map = aget h st.map := by
  induction l generalizing st with
  | nil => rfl
  | cons it rest ih =>
    simp only [List.foldl_cons] at hp ⊢
    rw [ih _ hp]
    by_cases hc : (expected.contains (itemHidx it) &&
        !st.processed.contains (itemHidx it)) = true
    · cases hm : aget (itemHidx it) st.map with
      | none =>
        unfold mergeStep
        rw [hc, hm]
        simp
      | some orig =>
        have hand := (Bool.and_eq_true _ _).mp hc
        have hP : st.processed.contains (itemHidx it) = false := by
          have := hand.2
          simp only [Bool.not_eq_true'] at this
          exact this
        have hstep := mergeStep_merge expected st it orig hand.1 hP hm
        have hne : itemHidx it ≠ h := by
          intro hEq
          refine hp (fold_processed_mono expected rest _ h ?_)
          rw [hstep]
          exact hEq ▸ List.mem_cons_self _ _
        rw [hstep]
        exact aget_aset_ne h (itemHidx it) _ st.map hne
    · unfold mergeStep
      rw [Bool.not_eq_true] at hc
      rw [hc]
      simp

/-- Keys registered by the initial-map fold. -/
theorem aget_initialBatchMap_isSome (ps : List PyDict) (h : String) :
    (aget h (initialBatchMap ps)).isSome = true ↔
      ∃ p ∈ ps, ∃ v, dget "hidx" p = some v ∧ pyStr v = h := by
  unfold initialBatchMap
  suffices hgen : ∀ (acc : List (String × PyDict)),
      (aget h (ps.foldl (fun m p =>
        match dget "hidx" p with
        | some v => aset (pyStr v) p m
        | none => m) acc)).isSome = true ↔
      ((aget h acc).isSome = true ∨
        ∃ p ∈ ps, ∃ v, dget "hidx" p = some v ∧ pyStr v = h) by
    rw [hgen []]
    simp [aget]
  intro acc
  induction ps generalizing acc with
  | nil => simp
  | cons p rest ih =>
    simp only [List.foldl_cons]
    cases hv : dget "hidx" p with
    | none =>
      rw [ih acc]
      constructor
      · rintro (h1 | ⟨p', hp', v, hv', hs⟩)
        · exact Or.inl h1
        · exact Or.inr ⟨p', List.mem_cons_of_mem _ hp', v, hv', hs⟩
      · rintro (h1 | ⟨p', hp', v, hv', hs⟩)
        · exact Or.inl h1
        · rcases List.mem_cons.mp hp' with rfl | hp''
          · rw [hv] at hv'
            exact absurd hv' (by simp)
          · exact Or.inr ⟨p', hp'', v, hv', hs⟩
    | some v =>
      rw [ih _]
      have hset : (aget h (aset (pyStr v) p acc)).isSome = true ↔
          (pyStr v = h ∨ (aget h acc).isSome = true) := by
        by_cases hEq : pyStr v = h
        · subst hEq
          simp [aget_aset_self]
        · rw [aget_aset_ne h (pyStr v) _ _ hEq]
          simp [hEq]
      rw [hset]
      constructor
      · rintro ((h1 | h1) | ⟨p', hp', v', hv', hs⟩)
        · exact Or.inr ⟨p, List.mem_cons_self _ _, v, hv, h1⟩
        · exact Or.inl h1
        · exact Or.inr ⟨p', List.mem_cons_of_mem _ hp', v', hv', hs⟩
      · rintro (h1 | ⟨p', hp', v', hv', hs⟩)
        · exact Or.inl (Or.inr h1)
        · rcases List.mem_cons.mp hp' with rfl | hp''
          · rw [hv] at hv'
            have hvv : v = v' := by injection hv'
            exact Or.inl (Or.inl (by rw [← hs, hvv]))
          · exact Or.inr ⟨p', hp'', v', hv', hs⟩

/-- Membership in `batchHidxList`. -/
theorem mem_batchHidxList (ps : List PyDict) (h : String) :
    h ∈ batchHidxList ps ↔
      ∃ p ∈ ps, ∃ v, dget "hidx" p = some v ∧ v.isNone = false ∧
        pyStr v = h := by
  unfold batchHidxList
  rw [List.mem_filterMap]
  constructor
  · rintro ⟨p, hp, hEq⟩
    cases hv : dget "hidx" p with
    | none => rw [hv] at hEq; simp at hEq
    | some v =>
      rw [hv] at hEq
      simp only [] at hEq
      by_cases hn : v.isNone
      · rw [if_pos hn] at hEq
        simp at hEq
      · rw [if_neg hn] at hEq
        exact ⟨p, hp, v, hv, by simpa using hn, by simpa using hEq⟩
  · rintro ⟨p, hp, v, hv, hn, hs⟩
    refine ⟨p, hp, ?_⟩
    rw [hv]
    simp only []
    rw [if_neg (by simp [hn])]
    simpa using hs

/-- Expected identifiers are present in the initial batch map. -/
theorem expected_isSome (ps : List PyDict) (h : String)
    (hm : h ∈ batchHidxList ps) :
    (aget h (initialBatchMap ps)).isSome = true := by
  rcases (mem_batchHidxList ps h).mp hm with ⟨p, hp, v, hv, _, hs⟩
  exact (aget_initialBatchMap_isSome ps h).mpr ⟨p, hp, v, hv, hs⟩

theorem firstDedup_fold_mem (l : List String) (acc : List String)
    (x : String) :
    x ∈ l.foldl (fun acc x => if acc.contains x then acc else x :: acc) acc ↔
      x ∈ acc ∨ x ∈ l := by
  induction l generalizing acc with
  | nil => simp
  | cons y rest ih =>
    simp only [List.foldl_cons]
    by_cases hc : acc.contains y
    · rw [if_pos hc]
      rw [ih acc]
      constructor
      · rintro (h1 | h1)
        · exact Or.inl h1
        · exact Or.inr (List.mem_cons_of_mem _ h1)
      · rintro (h1 | h1)
        · exact Or.inl h1
        · rcases List.mem_cons.mp h1 with rfl | h2
          · exact Or.inl (by simpa using hc)
          · exact Or.inr h2
    · rw [if_neg hc]
      rw [ih (y :: acc)]
      constructor
      · rintro (h1 | h1)
        · rcases List.mem_cons.mp h1 with rfl | h2
          · exact Or.inr (List.mem_cons_self _ _)
          · exact Or.inl h2
        · exact Or.inr (List.mem_cons_of_mem _ h1)
      · rintro (h1 | h1)
        · exact Or.inl (List.mem_cons_of_mem _ h1)
        · rcases List.mem_cons.mp h1 with rfl | h2
          · exact Or.inl (List.mem_cons_self _ _)
          · exact Or.inr h2

theorem mem_firstDedup (l : List String) (x : String) :
    x ∈ firstDedup l ↔ x ∈ l := by
  unfold firstDedup
  rw [List.mem_reverse, firstDedup_fold_mem]
  simp

theorem firstDedup_fold_nodup (l : List String) (acc : List String)
    (hnd : acc.Nodup) :
    (l.foldl (fun acc x => if acc.contains x then acc else x :: acc) acc).Nodup := by
  induction l generalizing acc with
  | nil => simpa
  | cons y rest ih =>
    simp only [List.foldl_cons]
    by_cases hc : acc.contains y
    · rw [if_pos hc]
      exact ih acc hnd
    · rw [if_neg hc]
      refine ih (y :: acc) (List.nodup_cons.mpr ⟨?_, hnd⟩)
      simpa using hc

theorem firstDedup_nodup (l : List String) : (firstDedup l).Nodup := by
  unfold firstDedup
  exact List.nodup_reverse.mpr (firstDedup_fold_nodup l [] (by simp))

/-- If the first item filed under `h` is `it`, folding the merge loop
from a state where `h` is expected, unprocessed and mapped to `orig`
merges exactly `dupdate orig (coerceItem it)`. -/
theorem fold_merge_first (expected : List String) (items : List PyDict)
    (st : MergeState) (h : String) (it : PyDict) (orig : PyDict)
    (hE : expected.contains h = true)
    (hP : st.processed.contains h = false)
    (hm : aget h st.map = some orig)
    (hfirst : firstItemFor items h = some it) :
    h ∈ (items.foldl (mergeStep expected) st).processed ∧
      dupdate orig (coerceItem it) ∈
        (items.foldl (mergeStep expected) st).finalRev := by
  induction items generalizing st with
  | nil => simp [firstItemFor] at hfirst
  | cons it0 rest ih =>
    unfold firstItemFor at hfirst
    rw [List.find?_cons] at hfirst
    by_cases hh : itemHidx it0 = h
    · have hb : (itemHidx it0 == h) = true := by simpa using hh
      rw [hb] at hfirst
      simp only [] at hfirst
      have hit : it0 = it := by injection hfirst
      subst hit
      have hstep := mergeStep_merge expected st it0 orig (hh ▸ hE)
        (hh ▸ hP) (hh ▸ hm)
      simp only [List.foldl_cons]
      rw [hstep]
      constructor
      · exact fold_processed_mono expected rest _ h
          (by rw [← hh]; exact List.mem_cons_self _ _)
      · exact fold_finalRev_mono expected rest _ _ (List.mem_cons_self _ _)
    · have hb : (itemHidx it0 == h) = false := by simpa using hh
      rw [hb] at hfirst
      simp only [] at hfirst
      simp only [List.foldl_cons]
      have hP1 : (mergeStep expected st it0).processed.contains h = false := by
        by_cases hcp : (mergeStep expected st it0).processed.contains h = true
        · exfalso
          have : h ∈ (mergeStep expected st it0).processed := by simpa using hcp
          rcases mergeStep_processed_new expected st it0 h this with h1 | h1
          · have : st.processed.contains h = true := by simpa using h1
            rw [this] at hP
            exact absurd hP (by simp)
          · exact hh h1.symm
        · simpa using hcp
      have hm1 : aget h (mergeStep expected st it0).map = some orig := by
        unfold mergeStep
        split
        · split
          · next prop heq =>
            rw [aget_aset_ne h (itemHidx it0) _ _ hh]
            exact hm
          · exact hm
        · exact hm
      exact ih _ hP1 hm1 (by unfold firstItemFor; exact hfirst)

theorem dget_eq_none_iff (k : String) (d : PyDict) :
    dget k d = none ↔ k ∉ d.map Prod.fst := by
  induction d with
  | nil => simp [dget]
  | cons kv rest ih =>
    obtain ⟨k', v'⟩ := kv
    by_cases h : k' = k
    · simp [dget, h]
    · simp [dget, h, ih, Ne.symm h]

theorem dset_keys_of_some (k : String) (v w : PyVal) (d : PyDict)
    (h : dget k d = some w) :
    (dset k v d).map Prod.fst = d.map Prod.fst := by
  induction d with
  | nil => simp [dget] at h
  | cons kv rest ih =>
    obtain ⟨k', v'⟩ := kv
    by_cases hk : k' = k
    · simp [dset, hk]
    · simp only [dget, if_neg hk] at h
      simp [dset, hk, ih h]

theorem dget_dupdate_of_none (k : String) (d its : PyDict)
    (h : dget k its = none) : dget k (dupdate d its) = dget k d := by
  induction its generalizing d with
  | nil => rfl
  | cons kv rest ih =>
    obtain ⟨k₀, v₀⟩ := kv
    simp only [dget] at h
    by_cases hk : k₀ = k
    · rw [if_pos hk] at h
      exact absurd h (by simp)
    · rw [if_neg hk] at h
      have : dupdate d ((k₀, v₀) :: rest) = dupdate (dset k₀ v₀ d) rest := by
        simp [dupdate]
      rw [this, ih _ h, dget_dset_ne k k₀ v₀ d hk]

theorem dget_dupdate_of_some (k : String) (d its : PyDict) (v : PyVal)
    (hnd : (its.map Prod.fst).Nodup) (h : dget k its = some v) :
    dget k (dupdate d its) = some v := by
  induction its generalizing d with
  | nil => simp [dget] at h
  | cons kv rest ih =>
    obtain ⟨k₀, v₀⟩ := kv
    have hstep : dupdate d ((k₀, v₀) :: rest) = dupdate (dset k₀ v₀ d) rest := by
      simp [dupdate]
    simp only [dget] at h
    simp only [List.map_cons, List.nodup_cons] at hnd
    by_cases hk : k₀ = k
    · rw [if_pos hk] at h
      subst hk
      have hnone : dget k₀ rest = none :=
        (dget_eq_none_iff k₀ rest).mpr hnd.1
      rw [hstep, dget_dupdate_of_none _ _ _ hnone, dget_dset_self]
      exact h
    · rw [if_neg hk] at h
      rw [hstep]
      exact ih _ hnd.2 h

/-- `coerceItem` leaves every key of the item in place. -/
theorem coerceItem_keys (it : PyDict) :
    (coerceItem it).map Prod.fst = it.map Prod.fst := by
  unfold coerceItem
  have hstep : ∀ (cats : List String) (d : PyDict),
      ((cats.foldl (fun it cat =>
        match dget cat it with
        | some (.vdict dd) =>
          dset cat (.vdict (dd.map (fun kv =>
            if strContains kv.1 "total" || strContains kv.1 "score" then
              (kv.1, coerceScoreVal kv.2)
            else kv))) it
        | _ => it) d).map Prod.fst) = d.map Prod.fst := by
    intro cats
    induction cats with
    | nil => intro d; rfl
    | cons c rest ih =>
      intro d
      simp only [List.foldl_cons]
      rw [ih _]
      cases hv : dget c d with
      | none => rfl
      | some w =>
        cases w with
        | vdict dd => exact dset_keys_of_some _ _ _ _ hv
        | vnone => rfl
        | vbool b => rfl
        | vint n => rfl
        | vfloat q => rfl
        | vstr s => rfl
        | vlist xs => rfl
  rw [hstep]
  cases hv : dget "total_score" it with
  | none => rfl
  | some w => exact dset_keys_of_some _ _ _ _ hv

/-- `coerceItem` does not change the `hidx` entry. -/
theorem dget_hidx_coerceItem (it : PyDict) :
    dget "hidx" (coerceItem it) = dget "hidx" it := by
  unfold coerceItem
  have hstep : ∀ (cats : List String) (d : PyDict), "hidx" ∉ cats →
      dget "hidx" (cats.foldl (fun it cat =>
        match dget cat it with
        | some (.vdict dd) =>
          dset cat (.vdict (dd.map (fun kv =>
            if strContains kv.1 "total" || strContains kv.1 "score" then
              (kv.1, coerceScoreVal kv.2)
            else kv))) it
        | _ => it) d) = dget "hidx" d := by
    intro cats
    induction cats with
    | nil => intro d _; rfl
    | cons c rest ih =>
      intro d hnm
      simp only [List.foldl_cons]
      rw [ih _ (fun hm => hnm (List.mem_cons_of_mem _ hm))]
      have hc : c ≠ "hidx" := by
        intro hEq
        exact hnm (hEq ▸ List.mem_cons_self _ _)
      cases hv : dget c d with
      | none => rfl
      | some w =>
        cases w with
        | vdict dd => exact dget_dset_ne _ _ _ _ hc
        | vnone => rfl
        | vbool b => rfl
        | vint n => rfl
        | vfloat q => rfl
        | vstr s => rfl
        | vlist xs => rfl
  rw [hstep _ _ (by decide)]
  cases hv : dget "total_score" it with
  | none => rfl
  | some w => exact dget_dset_ne _ _ _ _ (by decide)

/-- Values of the initial batch map carry the `hidx` key, rendered to
their map key. -/
theorem initialBatchMap_values (ps : List PyDict) (h : String)
    (prop : PyDict) (hm : aget h (initialBatchMap ps) = some prop) :
    (dget "hidx" prop).isSome = true ∧
      pyStr (dgetD "hidx" PyVal.vnone prop) = h := by
  unfold initialBatchMap at hm
  suffices hgen : ∀ (acc : List (String × PyDict)),
      (∀ h' p', aget h' acc = some p' →
        (dget "hidx" p').isSome = true ∧
          pyStr (dgetD "hidx" PyVal.vnone p') = h') →
      ∀ h' p', aget h' (ps.foldl (fun m p =>
        match dget "hidx" p with
        | some v => aset (pyStr v) p m
        | none => m) acc) = some p' →
        (dget "hidx" p').isSome = true ∧
          pyStr (dgetD "hidx" PyVal.vnone p') = h' by
    exact hgen [] (by intro h' p' hc; simp [aget] at hc) h prop hm
  clear hm
  induction ps with
  | nil => intro acc hacc; exact hacc
  | cons p rest ih =>
    intro acc hacc
    simp only [List.foldl_cons]
    cases hv : dget "hidx" p with
    | none =>
      simp only [hv]
      exact ih acc hacc
    | some v =>
      simp only [hv]
      refine ih _ ?_
      intro h' p' hc
      by_cases hk : pyStr v = h'
      · subst hk
        rw [aget_aset_self] at hc
        have hp : p' = p := by injection hc.symm
        subst hp
        constructor
        · simp [hv]
        · unfold dgetD
          rw [hv]
          rfl
      · rw [aget_aset_ne _ _ _ _ hk] at hc
        exact hacc h' p' hc

/-- The merged record keeps an `hidx` key rendering to the item's
identifier. -/
theorem merged_hidx (orig it : PyDict) (hwf : (it.map Prod.fst).Nodup)
    (hS : (dget "hidx" orig).isSome = true)
    (hO : pyStr (dgetD "hidx" PyVal.vnone orig) = itemHidx it) :
    (dget "hidx" (dupdate orig (coerceItem it))).isSome = true ∧
      pyStr (dgetD "hidx" PyVal.vnone (dupdate orig (coerceItem it))) =
        itemHidx it := by
  cases hv : dget "hidx" it with
  | some v =>
    have hc : dget "hidx" (coerceItem it) = some v := by
      rw [dget_hidx_coerceItem, hv]
    have hnd : ((coerceItem it).map Prod.fst).Nodup := by
      rw [coerceItem_keys]; exact hwf
    have hm := dget_dupdate_of_some "hidx" orig (coerceItem it) v hnd hc
    refine ⟨by simp [hm], ?_⟩
    simp [itemHidx, dgetD, hm, hv]
  | none =>
    have hc : dget "hidx" (coerceItem it) = none := by
      rw [dget_hidx_coerceItem, hv]
    have hm := dget_dupdate_of_none "hidx" orig (coerceItem it) hc
    constructor
    · rw [hm]; exact hS
    · unfold dgetD
      rw [hm]
      exact hO

/-- One merge step preserves: every map value has an `hidx` key rendering
to its map key, and every merged record has an `hidx` key rendering into
the expected set. -/
theorem mergeStep_ident (expected : List String) (st : MergeState)
    (it : PyDict) (hwfit : (it.map Prod.fst).Nodup)
    (hK : ∀ h prop, aget h st.map = some prop →
      (dget "hidx" prop).isSome = true ∧
        pyStr (dgetD "hidx" PyVal.vnone prop) = h)
    (hF : ∀ r ∈ st.finalRev,
      (dget "hidx" r).isSome = true ∧
        pyStr (dgetD "hidx" PyVal.vnone r) ∈ expected) :
    (∀ h prop, aget h (mergeStep expected st it).map = some prop →
      (dget "hidx" prop).isSome = true ∧
        pyStr (dgetD "hidx" PyVal.vnone prop) = h) ∧
    (∀ r ∈ (mergeStep expected st it).finalRev,
      (dget "hidx" r).isSome = true ∧
        pyStr (dgetD "hidx" PyVal.vnone r) ∈ expected) := by
  by_cases hc : (expected.contains (itemHidx it) &&
      !st.processed.contains (itemHidx it)) = true
  · have hand := (Bool.and_eq_true _ _).mp hc
    have hEm : itemHidx it ∈ expected := by simpa using hand.1
    have hP : st.processed.contains (itemHidx it) = false := by
      have := hand.2
      simp only [Bool.not_eq_true'] at this
      exact this
    cases hm : aget (itemHidx it) st.map with
    | none =>
      have hskip : mergeStep expected st it = st := by
        unfold mergeStep
        rw [hc, hm]
        simp
      rw [hskip]
      exact ⟨hK, hF⟩
    | some orig =>
      have horig := hK _ orig hm
      have hmg := merged_hidx orig it hwfit horig.1 horig.2
      have hstep := mergeStep_merge expected st it orig hand.1 hP hm
      rw [hstep]
      constructor
      · intro h prop hget
        by_cases hEq : itemHidx it = h
        · subst hEq
          rw [aget_aset_self] at hget
          have hpe : prop = dupdate orig (coerceItem it) := by
            injection hget.symm
          subst hpe
          exact hmg
        · rw [aget_aset_ne h (itemHidx it) _ _ hEq] at hget
          exact hK h prop hget
      · intro r hr
        rcases List.mem_cons.mp hr with rfl | hr'
        · exact ⟨hmg.1, hmg.2 ▸ hEm⟩
        · exact hF r hr'
  · have hskip : mergeStep expected st it = st := by
      unfold mergeStep
      rw [Bool.not_eq_true] at hc
      rw [hc]
      simp
    rw [hskip]
    exact ⟨hK, hF⟩

/-- The merge fold preserves the identifier invariants of
`mergeStep_ident`. -/
theorem fold_ident_invariant (expected : List String) (l : List PyDict)
    (st : MergeState)
    (hwf : ∀ it ∈ l, (it.map Prod.fst).Nodup)
    (hK : ∀ h prop, aget h st.map = some prop →
      (dget "hidx" prop).isSome = true ∧
        pyStr (dgetD "hidx" PyVal.vnone prop) = h)
    (hF : ∀ r ∈ st.finalRev,
      (dget "hidx" r).isSome = true ∧
        pyStr (dgetD "hidx" PyVal.vnone r) ∈ expected) :
    (∀ h prop, aget h (l.foldl (mergeStep expected) st).map = some prop →
      (dget "hidx" prop).isSome = true ∧
        pyStr (dgetD "hidx" PyVal.vnone prop) = h) ∧
    (∀ r ∈ (l.foldl (mergeStep expected) st).finalRev,
      (dget "hidx" r).isSome = true ∧
        pyStr (dgetD "hidx" PyVal.vnone r) ∈ expected) := by
  induction l generalizing st with
  | nil => exact ⟨hK, hF⟩
  | cons it rest ih =>
    simp only [List.foldl_cons]
    have hstep := mergeStep_ident expected st it
      (hwf it (List.mem_cons_self _ _)) hK hF
    exact ih _ (fun it' hm => hwf it' (List.mem_cons_of_mem _ hm))
      hstep.1 hstep.2

/-- Length of the missing-record pass: one record per unprocessed
deduplicated identifier whose map entry exists. -/
theorem filterMap_missing_length (dE : List String) (st : MergeState)
    (hx : ∀ h ∈ dE, st.processed.contains h = false →
      (aget h st.map).isSome = true) :
    (dE.filterMap (fun h =>
      if !st.processed.contains h then
        match aget h st.map with
        | some prop => some (dset "reanalysis_comment" (.vstr missingMsg) prop)
        | none => none
      else none)).length
      = (dE.filter (fun h => !st.processed.contains h)).length := by
  induction dE with
  | nil => rfl
  | cons h rest ih =>
    have hrest := fun h' hm hp => hx h' (List.mem_cons_of_mem _ hm) hp
    by_cases hc : st.processed.contains h = true
    · have h1 : (if !st.processed.contains h then
          match aget h st.map with
          | some prop =>
            some (dset "reanalysis_comment" (.vstr missingMsg) prop)
          | none => none
        else none) = none := by
        rw [hc]
        rfl
      have h2 : (!st.processed.contains h) = false := by rw [hc]; rfl
      have h3 : List.filterMap (fun h =>
          if !st.processed.contains h then
            match aget h st.map with
            | some prop =>
              some (dset "reanalysis_comment" (.vstr missingMsg) prop)
            | none => none
          else none) (h :: rest) =
        List.filterMap (fun h =>
          if !st.processed.contains h then
            match aget h st.map with
            | some prop =>
              some (dset "reanalysis_comment" (.vstr missingMsg) prop)
            | none => none
          else none) rest := List.filterMap_cons_none h1
      rw [h3, List.filter_cons, if_neg (by rw [h2]; simp)]
      exact ih hrest
    · have hc' : st.processed.contains h = false := by simpa using hc
      have hs := hx h (List.mem_cons_self _ _) hc'
      cases hm : aget h st.map with
      | none => rw [hm] at hs; simp at hs
      | some prop =>
        have h1 : (if !st.processed.contains h then
            match aget h st.map with
            | some prop =>
              some (dset "reanalysis_comment" (.vstr missingMsg) prop)
            | none => none
          else none) =
            some (dset "reanalysis_comment" (.vstr missingMsg) prop) := by
          rw [hc', hm]
          rfl
        have h2 : (!st.processed.contains h) = true := by rw [hc']; rfl
        have h3 : List.filterMap (fun h =>
            if !st.processed.contains h then
              match aget h st.map with
              | some prop =>
                some (dset "reanalysis_comment" (.vstr missingMsg) prop)
              | none => none
            else none) (h :: rest) =
          dset "reanalysis_comment" (.vstr missingMsg) prop ::
            List.filterMap (fun h =>
              if !st.processed.contains h then
                match aget h st.map with
                | some prop =>
                  some (dset "reanalysis_comment" (.vstr missingMsg) prop)
                | none => none
              else none) rest := List.filterMap_cons_some h1
        rw [h3, List.filter_cons, if_pos (by rw [h2])]
        simp only [List.length_cons]
        rw [ih hrest]

/-- Counting: among a duplicate-free list, the entries hitting a
duplicate-free sublist are exactly that sublist in number. -/
theorem count_contains_eq_length (dE sub : List String) (hndE : dE.Nodup)
    (hnds : sub.Nodup) (hsub : ∀ x ∈ sub, x ∈ dE) :
    (dE.filter (fun h => sub.contains h)).length = sub.length := by
  apply le_antisymm
  · refine List.Subperm.length_le (List.Nodup.subperm (hndE.filter _) ?_)
    intro x hx
    have := List.mem_filter.mp hx
    simpa using this.2
  · refine List.Subperm.length_le (List.Nodup.subperm hnds ?_)
    intro x hx
    exact List.mem_filter.mpr ⟨hsub x hx, by simpa using hx⟩

/-- The percentile pass preserves the record count. -/
theorem calc_pct_length (ps : List PyDict) :
    (calculate_percentile_scores ps).length = ps.length := by
  unfold calculate_percentile_scores
  by_cases he : ps.isEmpty
  · rw [if_pos he]
  · rw [if_neg he]
    simp [List.enum_length]

theorem fold_map_isSome (expected : List String) (l : List PyDict)
    (st : MergeState) (h : String) (hm : (aget h st.map).isSome = true) :
    (aget h (l.foldl (mergeStep expected) st).map).isSome = true := by
  induction l generalizing st with
  | nil => exact hm
  | cons it rest ih =>
    exact ih _ (mergeStep_map_isSome expected st it h hm)

/-- An expected identifier occurring among the folded items ends up
processed, provided every expected identifier is mapped. -/
theorem fold_processed_of_mem (expected : List String) (l : List PyDict)
    (st : MergeState) (h : String)
    (hE : expected.contains h = true)
    (hmem : h ∈ l.map itemHidx)
    (hinv : ∀ h', expected.contains h' = true →
      (aget h' st.map).isSome = true) :
    h ∈ (l.foldl (mergeStep expected) st).processed := by
  induction l generalizing st with
  | nil => simp at hmem
  | cons it rest ih =>
    simp only [List.foldl_cons]
    by_cases hh : h = itemHidx it
    · by_cases hp : st.processed.contains (itemHidx it) = true
      · refine fold_processed_mono expected rest _ h
          (mergeStep_processed_mono expected st it h ?_)
        rw [hh]
        simpa using hp
      · have hp' : st.processed.contains (itemHidx it) = false := by
          simpa using hp
        have hsome := hinv (itemHidx it) (hh ▸ hE)
        cases hm : aget (itemHidx it) st.map with
        | none => rw [hm] at hsome; simp at hsome
        | some orig =>
          have hstep := mergeStep_merge expected st it orig (hh ▸ hE) hp' hm
          refine fold_processed_mono expected rest _ h ?_
          rw [hstep, hh]
          exact List.mem_cons_self _ _
    · have hmem' : h ∈ rest.map itemHidx := by
        rcases (by simpa using hmem :
            h = itemHidx it ∨ ∃ a ∈ rest, itemHidx a = h) with h1 | ⟨a, ha, hEq⟩
        · exact absurd h1 hh
        · exact List.mem_map.mpr ⟨a, ha, hEq⟩
      exact ih _ hmem'
        (fun h' hE' => mergeStep_map_isSome expected st it h' (hinv h' hE'))

/-- Every record of the percentile pass is some input record annotated. -/
theorem mem_calc_pct (l : List PyDict) (rec : PyDict)
    (hm : rec ∈ calculate_percentile_scores l) :
    ∃ i rec₀, rec₀ ∈ l ∧
      rec = annotRecord (locList l) (bldList l) (convList l) (priceList l)
        (totList l) i rec₀ := by
  unfold calculate_percentile_scores at hm
  by_cases he : l.isEmpty
  · rw [if_pos he] at hm
    rw [List.isEmpty_iff.mp he] at hm
    simp at hm
  · rw [if_neg he] at hm
    rcases List.mem_map.mp hm with ⟨⟨i, rec₀⟩, hmem, heq⟩
    refine ⟨i, rec₀, ?_, heq.symm⟩
    rw [List.mk_mem_enum_iff_getElem?] at hmem
    obtain ⟨hlt, hgeq⟩ := List.getElem?_eq_some.mp hmem
    exact hgeq ▸ List.getElem_mem hlt

/-- Every reconciled record keeps an `hidx` key rendering into the
expected identifier set. -/
theorem reconcileProps_hidx (ps items : List PyDict)
    (hwf : ∀ it ∈ items, (it.map Prod.fst).Nodup) :
    ∀ rec ∈ reconcileProps ps items,
      (dget "hidx" rec).isSome = true ∧
        pyStr (dgetD "hidx" PyVal.vnone rec) ∈ batchHidxList ps := by
  intro rec hrec
  unfold reconcileProps at hrec
  have hinv := fold_ident_invariant (batchHidxList ps) items
    ⟨initialBatchMap ps, [], []⟩ hwf
    (fun h prop hm => initialBatchMap_values ps h prop hm)
    (by intro r hr; simp at hr)
  rcases List.mem_append.mp hrec with h1 | h1
  · exact hinv.2 rec (List.mem_reverse.mp h1)
  · rcases List.mem_filterMap.mp h1 with ⟨h, hdE, hf⟩
    revert hf
    by_cases hc : (items.foldl (mergeStep (batchHidxList ps))
        ⟨initialBatchMap ps, [], []⟩).processed.contains h = true
    · rw [hc]
      intro hf
      exact absurd hf (by simp)
    · have hc' : (items.foldl (mergeStep (batchHidxList ps))
          ⟨initialBatchMap ps, [], []⟩).processed.contains h = false := by
        simpa using hc
      rw [hc']
      cases hm : aget h (items.foldl (mergeStep (batchHidxList ps))
          ⟨initialBatchMap ps, [], []⟩).map with
      | none =>
        intro hf
        exact absurd hf (by simp)
      | some orig =>
        intro hf
        have horig := hinv.1 h orig hm
        have hrecEq : rec = dset "reanalysis_comment" (.vstr missingMsg) orig := by
          have : some (dset "reanalysis_comment" (.vstr missingMsg) orig) =
              some rec := by simpa using hf
          injection this with h'
          exact h'.symm
        subst hrecEq
        have hne : ("reanalysis_comment" : String) ≠ "hidx" := by decide
        constructor
        · rw [dget_dset_ne "hidx" "reanalysis_comment" _ orig hne]
          exact horig.1
        · unfold dgetD
          rw [dget_dset_ne "hidx" "reanalysis_comment" _ orig hne]
          have : pyStr ((dget "hidx" orig).getD PyVal.vnone) = h := horig.2
          rw [this]
          exact (mem_firstDedup _ _).mp hdE

/-- C4: in a parsed response carrying two entries with the same
identifier, only the first occurrence is merged: inserting a later
duplicate anywhere after an item with the same identifier leaves the
reconciled output — and the whole merge path — unchanged, so the
duplicate overwrites nothing. -/
theorem claim_C4 (ps : List PyDict) (pre post : List PyDict) (dup : PyDict)
    (hdup : itemHidx dup ∈ pre.map itemHidx) :
    reconcileProps ps (pre ++ dup :: post) = reconcileProps ps (pre ++ post) ∧
    reanalyzeMergePath ps (pre ++ dup :: post) =
      reanalyzeMergePath ps (pre ++ post) := by
  have hfold : (pre ++ dup :: post).foldl (mergeStep (batchHidxList ps))
        ⟨initialBatchMap ps, [], []⟩ =
      (pre ++ post).foldl (mergeStep (batchHidxList ps))
        ⟨initialBatchMap ps, [], []⟩ := by
    rw [List.foldl_append, List.foldl_append, List.foldl_cons]
    have hstep : mergeStep (batchHidxList ps)
        (pre.foldl (mergeStep (batchHidxList ps))
          ⟨initialBatchMap ps, [], []⟩) dup =
        pre.foldl (mergeStep (batchHidxList ps))
          ⟨initialBatchMap ps, [], []⟩ := by
      by_cases hE : (batchHidxList ps).contains (itemHidx dup) = true
      · have hproc : itemHidx dup ∈
            (pre.foldl (mergeStep (batchHidxList ps))
              ⟨initialBatchMap ps, [], []⟩).processed :=
          fold_processed_of_mem (batchHidxList ps) pre _ _ hE hdup
            (fun h' hE' => expected_isSome ps h' (by simpa using hE'))
        exact mergeStep_skip _ _ dup (Or.inr (by simpa using hproc))
      · exact mergeStep_skip _ _ dup (Or.inl (by simpa using hE))
    rw [hstep]
  constructor
  · simp only [reconcileProps]
    rw [hfold]
  · simp only [reanalyzeMergePath, reconcileProps]
    rw [hfold]

/-- Witness for C4 at a concrete batch and duplicate pair. -/
theorem claim_C4_witness :
    itemHidx C4item2 ∈ [C4item1].map itemHidx ∧
    reanalyzeMergePath C4batch ([C4item1] ++ C4item2 :: []) =
      reanalyzeMergePath C4batch ([C4item1] ++ []) := by
  have h1 : itemHidx C4item2 ∈ [C4item1].map itemHidx := by
    simp [C4item1, C4item2, itemHidx, dgetD, dget, pyStr]
  exact ⟨h1, (claim_C4 C4batch [C4item1] [] C4item2 h1).2⟩

/-- C3: for any parsed response (covering a strict subset of the
expected identifiers or not), the reconciled batch holds exactly one
record per distinct expected identifier; each expected identifier whose
first response item exists gets its merged data, each unreturned
expected identifier keeps its pre-batch state annotated with the
missing-record comment, every output record's identifier belongs to the
expected set, and in particular any identifier returned by the response
but outside the expected set is discarded and never appears in the
output. -/
theorem claim_C3 (ps items : List PyDict)
    (hwf : ∀ it ∈ items, (it.map Prod.fst).Nodup) :
    (reanalyzeMergePath ps items).length =
      (firstDedup (batchHidxList ps)).length ∧
    (∀ h it, h ∈ batchHidxList ps → firstItemFor items h = some it →
      ∃ orig, aget h (initialBatchMap ps) = some orig ∧
        dupdate orig (coerceItem it) ∈ reconcileProps ps items) ∧
    (∀ h ∈ batchHidxList ps, h ∉ returnedHidxs items →
      ∃ orig, aget h (initialBatchMap ps) = some orig ∧
        dset "reanalysis_comment" (.vstr missingMsg) orig ∈
          reconcileProps ps items) ∧
    (∀ rec ∈ reconcileProps ps items,
      pyStr (dgetD "hidx" PyVal.vnone rec) ∈ batchHidxList ps) ∧
    (∀ h ∈ returnedHidxs items, h ∉ batchHidxList ps →
      ∀ rec ∈ reconcileProps ps items,
        pyStr (dgetD "hidx" PyVal.vnone rec) ≠ h) := by
  refine ⟨?_, ?_, ?_, ?_, ?_⟩
  · have hx : ∀ h ∈ firstDedup (batchHidxList ps),
        (items.foldl (mergeStep (batchHidxList ps))
          ⟨initialBatchMap ps, [], []⟩).processed.contains h = false →
        (aget h (items.foldl (mergeStep (batchHidxList ps))
          ⟨initialBatchMap ps, [], []⟩).map).isSome = true := by
      intro h hdE hpc
      have hnp : h ∉ (items.foldl (mergeStep (batchHidxList ps))
          ⟨initialBatchMap ps, [], []⟩).processed := by simpa using hpc
      rw [fold_map_unprocessed (batchHidxList ps) items
        ⟨initialBatchMap ps, [], []⟩ h hnp]
      exact expected_isSome ps h ((mem_firstDedup _ h).mp hdE)
    have hcnt : (items.foldl (mergeStep (batchHidxList ps))
          ⟨initialBatchMap ps, [], []⟩).finalRev.length =
        (items.foldl (mergeStep (batchHidxList ps))
          ⟨initialBatchMap ps, [], []⟩).processed.length :=
      fold_counts (batchHidxList ps) items ⟨initialBatchMap ps, [], []⟩ rfl
    have hmiss := filterMap_missing_length (firstDedup (batchHidxList ps))
      (items.foldl (mergeStep (batchHidxList ps))
        ⟨initialBatchMap ps, [], []⟩) hx
    have hsplit : (firstDedup (batchHidxList ps)).length =
        ((firstDedup (batchHidxList ps)).filter (fun h =>
          (items.foldl (mergeStep (batchHidxList ps))
            ⟨initialBatchMap ps, [], []⟩).processed.contains h)).length +
        ((firstDedup (batchHidxList ps)).filter (fun h =>
          !(items.foldl (mergeStep (batchHidxList ps))
            ⟨initialBatchMap ps, [], []⟩).processed.contains h)).length :=
      List.length_eq_length_filter_add _
    have hcc : ((firstDedup (batchHidxList ps)).filter (fun h =>
          (items.foldl (mergeStep (batchHidxList ps))
            ⟨initialBatchMap ps, [], []⟩).processed.contains h)).length =
        (items.foldl (mergeStep (batchHidxList ps))
          ⟨initialBatchMap ps, [], []⟩).processed.length := by
      refine count_contains_eq_length _ _ (firstDedup_nodup _)
        (fold_processed_nodup (batchHidxList ps) items
          ⟨initialBatchMap ps, [], []⟩ (by simp)) ?_
      intro x hxp
      refine (mem_firstDedup _ x).mpr ?_
      exact fold_processed_expected (batchHidxList ps) items
        ⟨initialBatchMap ps, [], []⟩ (by intro h' hm; simp at hm) x hxp
    simp only [reanalyzeMergePath]
    rw [calc_pct_length]
    simp only [reconcileProps]
    rw [List.length_append, List.length_reverse]
    omega
  · intro h it hE hfirst
    have hEc : (batchHidxList ps).contains h = true := by simpa using hE
    have hsome := expected_isSome ps h hE
    cases horig : aget h (initialBatchMap ps) with
    | none => rw [horig] at hsome; simp at hsome
    | some orig =>
      have hmf := fold_merge_first (batchHidxList ps) items
        ⟨initialBatchMap ps, [], []⟩ h it orig hEc rfl horig hfirst
      refine ⟨orig, rfl, ?_⟩
      simp only [reconcileProps]
      exact List.mem_append.mpr (Or.inl (List.mem_reverse.mpr hmf.2))
  · intro h hE hnr
    have hnp : h ∉ (items.foldl (mergeStep (batchHidxList ps))
        ⟨initialBatchMap ps, [], []⟩).processed := by
      intro hmem
      rcases fold_processed_new (batchHidxList ps) items
        ⟨initialBatchMap ps, [], []⟩ h hmem with h1 | h1
      · simp at h1
      · exact hnr h1
    have hsome := expected_isSome ps h hE
    cases horig : aget h (initialBatchMap ps) with
    | none => rw [horig] at hsome; simp at hsome
    | some orig =>
      have hmap : aget h (items.foldl (mergeStep (batchHidxList ps))
          ⟨initialBatchMap ps, [], []⟩).map = some orig := by
        rw [fold_map_unprocessed (batchHidxList ps) items
          ⟨initialBatchMap ps, [], []⟩ h hnp]
        exact horig
      refine ⟨orig, rfl, ?_⟩
      simp only [reconcileProps]
      refine List.mem_append.mpr (Or.inr ?_)
      refine List.mem_filterMap.mpr ⟨h, (mem_firstDedup _ h).mpr hE, ?_⟩
      have hpc : (items.foldl (mergeStep (batchHidxList ps))
          ⟨initialBatchMap ps, [], []⟩).processed.contains h = false := by
        simpa using hnp
      rw [hpc, hmap]
      rfl
  · exact fun rec hrec => (reconcileProps_hidx ps items hwf rec hrec).2
  · intro h hR hNotE rec hrec hEq
    exact hNotE (hEq ▸ (reconcileProps_hidx ps items hwf rec hrec).2)

/-- Witness for C3 at a two-record batch answered for `"a"` and for the
foreign identifier `"zz"`: the output still has one record per expected
identifier and the foreign identifier never appears. -/
theorem claim_C3_witness :
    (∀ it ∈ C3items, (List.map Prod.fst it).Nodup) ∧
    "zz" ∈ returnedHidxs C3items ∧ "zz" ∉ batchHidxList C3batch ∧
    (reanalyzeMergePath C3batch C3items).length =
      (firstDedup (batchHidxList C3batch)).length ∧
    (∀ rec ∈ reconcileProps C3batch C3items,
      pyStr (dgetD "hidx" PyVal.vnone rec) ≠ "zz") := by
  have hbl : batchHidxList C3batch = ["a", "b"] := rfl
  have hrh : returnedHidxs C3items = ["a", "zz"] := rfl
  have h1 : ∀ it ∈ C3items, (List.map Prod.fst it).Nodup := by
    intro it hit
    simp only [C3items, List.mem_cons, List.mem_singleton,
      List.not_mem_nil, or_false] at hit
    rcases hit with rfl | rfl
    · decide
    · decide
  have h2 : "zz" ∈ returnedHidxs C3items := by rw [hrh]; decide
  have h3 : "zz" ∉ batchHidxList C3batch := by rw [hbl]; decide
  exact ⟨h1, h2, h3, (claim_C3 C3batch C3items h1).1,
    (claim_C3 C3batch C3items h1).2.2.2.2 "zz" h2 h3⟩

/-- C9: when at least one record carries a usable identifier and the
response parses and merges, every returned record has an `hidx` key — so
any input record lacking the key is absent from the returned list. -/
theorem claim_C9 (ps : List PyDict) (key : Option String)
    (f : ℕ → ApiOutcome) (parse : String → ParseResult)
    (items : List PyDict) (rt : String)
    (hkey : keyFalsy key = false)
    (hhx : (batchHidxList ps).isEmpty = false)
    (hrt : (retryLoop f MAX_RETRY 0).2.2 = some rt)
    (hrt' : rt ≠ "")
    (hp : parse rt = ParseResult.parsed items)
    (hwf : ∀ it ∈ items, (it.map Prod.fst).Nodup) :
    (∀ rec ∈ reanalyze_property_batch ps key f parse,
      (dget "hidx" rec).isSome = true) ∧
    (∀ p ∈ ps, dget "hidx" p = none →
      p ∉ reanalyze_property_batch ps key f parse) := by
  have hpe : ps.isEmpty = false := by
    by_cases hps : ps.isEmpty
    · exfalso
      rw [List.isEmpty_iff.mp hps] at hhx
      simp [batchHidxList] at hhx
    · simpa using hps
  have hout : reanalyze_property_batch ps key f parse =
      reanalyzeMergePath ps items := by
    simp [reanalyze_property_batch, reanalyze_property_batch_exc,
      processResponseExc, hpe, hkey, hhx, hrt, hrt', hp]
  have hall : ∀ rec ∈ reanalyze_property_batch ps key f parse,
      (dget "hidx" rec).isSome = true := by
    intro rec hrec
    rw [hout] at hrec
    rcases mem_calc_pct _ rec hrec with ⟨i, rec₀, hmem, rfl⟩
    have h0 := (reconcileProps_hidx ps items hwf rec₀ hmem).1
    unfold annotRecord
    exact dget_dset_isSome _ _ _ _ (dget_dset_isSome _ _ _ _ h0)
  refine ⟨hall, ?_⟩
  intro p hp₀ hnone hmem
  have := hall p hmem
  rw [hnone] at this
  simp at this

/-- Witness for C9: the identifier-less record of `C9batch` is dropped. -/
theorem claim_C9_witness :
    dget "hidx" [("total_score", PyVal.vint 30)] = none ∧
    [("total_score", PyVal.vint 30)] ∈ C9batch ∧
    [("total_score", PyVal.vint 30)] ∉
      reanalyze_property_batch C9batch (some "k")
        (fun _ => ApiOutcome.resp "x")
        (fun _ => ParseResult.parsed C9items) := by
  have hwf : ∀ it ∈ C9items, (List.map Prod.fst it).Nodup := by
    intro it hit
    simp only [C9items, List.mem_singleton] at hit
    subst hit
    simp
  have hmem : [("total_score", PyVal.vint 30)] ∈ C9batch :=
    List.mem_cons_of_mem _ (List.mem_cons_self _ _)
  refine ⟨rfl, hmem, ?_⟩
  exact (claim_C9 C9batch (some "k") (fun _ => ApiOutcome.resp "x")
    (fun _ => ParseResult.parsed C9items) C9items "x" rfl rfl rfl
    (by decide) rfl hwf).2 [("total_score", PyVal.vint 30)] hmem rfl
